import Mathlib

/-!
# auto_stow_watch: relocation of top-level dotfiles into a stow repository

A shallow embedding of `scripts/auto_stow/auto_stow_watch.go`.

* Strings are Lean `String`s, processed through their character lists.
* The Go library functions the program calls (`strings.HasPrefix`,
  `strings.HasSuffix`, `strings.Split`, `filepath.Clean`, `filepath.Join`,
  `filepath.Base`, `filepath.Rel`) are transcribed for a Unix host
  (separator `/`, no volume names).
* The three process-wide variables `homeDir`, `dotfilesDir`, `dryRun` are the
  fields of `Config`, passed explicitly.
* The filesystem is an explicit state; every operating-system call the
  program makes is a function on that state which also appends to a log of
  the calls made, so that "no mutation" and "tool not invoked" are statements
  about the log and about the state.
-/

namespace AutoStow

/-! ## Strings and lexical paths -/

/-- Go `strings.HasPrefix`. -/
def hasPrefix (s pre : String) : Bool := pre.data.isPrefixOf s.data

/-- Go `strings.HasSuffix`. -/
def hasSuffix (s suf : String) : Bool := suf.data.isSuffixOf s.data

/-- Go `strings.Split(s, "/")` on character lists: the pieces between
separators, empty pieces kept, one piece for the empty string. -/
def splitSep : List Char → List (List Char)
  | [] => [[]]
  | c :: cs =>
    match splitSep cs with
    | [] => [[]]
    | w :: ws => if c = '/' then [] :: w :: ws else (c :: w) :: ws

/-- Go `strings.Join(elems, "/")` on character lists. -/
def joinSep : List (List Char) → List Char
  | [] => []
  | [w] => w
  | w :: ws => w ++ '/' :: joinSep ws

/-- One element of the scan in `filepath.Clean`; `out` is the output so far,
last element first. Empty and `.` elements are dropped; `..` removes the
preceding element when there is one that is not itself `..`, is dropped at the
root of a rooted path, and is kept otherwise. -/
def cleanStep (rooted : Bool) (out : List (List Char)) (e : List Char) :
    List (List Char) :=
  if e = [] ∨ e = ['.'] then out
  else if e = ['.', '.'] then
    match out with
    | t :: rest => if t = ['.', '.'] then e :: out else rest
    | [] => if rooted then [] else [e]
  else e :: out

/-- The elements of the cleaned path. -/
def cleanSegs (rooted : Bool) (es : List (List Char)) : List (List Char) :=
  (es.foldl (cleanStep rooted) []).reverse

/-- Go `filepath.Clean` (Unix). -/
def Clean (p : String) : String :=
  let rooted := hasPrefix p "/"
  let segs := cleanSegs rooted (splitSep p.data)
  if rooted then String.mk ('/' :: joinSep segs)
  else if segs = [] then "."
  else String.mk (joinSep segs)

/-- Go `filepath.Join`: leading empty elements are skipped, the rest is joined
with the separator and cleaned; all elements empty gives the empty string. -/
def Join : List String → String
  | [] => ""
  | e :: es =>
    if e = "" then Join es
    else Clean (String.mk (joinSep ((e :: es).map String.data)))

/-- Go `filepath.Base` (Unix): the last element of the path, trailing
separators removed first; `.` for the empty path, `/` for a path of
separators only. -/
def Base (path : String) : String :=
  if path = "" then "."
  else
    let stripped := path.data.reverse.dropWhile (fun c => c = '/')
    let last := (stripped.takeWhile (fun c => c ≠ '/')).reverse
    if last = [] then "/" else String.mk last

/-- The element loop of `filepath.Rel`: `b` and `t` are what is left of the
cleaned base and target from the positions `b0` and `t0`. Returns what is left
from `b0`, the base element `base[b0:bi]` at exit, and what is left from `t0`. -/
def relLoop : Nat → List Char → List Char → List Char × List Char × List Char
  | 0, b, t => (b, [], t)
  | fuel + 1, b, t =>
    if b = [] ∨ t = [] then (b, [], t)
    else
      let be := b.takeWhile (fun c => c ≠ '/')
      let te := t.takeWhile (fun c => c ≠ '/')
      if te ≠ be then (b, be, t)
      else relLoop fuel ((b.drop be.length).drop 1) ((t.drop te.length).drop 1)

/-- Go `filepath.Rel` (Unix); `none` is the error result. Both paths are
cleaned; equal paths give `.`; a rooted and an unrooted path cannot be related;
otherwise the common leading elements are dropped, one `..` is written for each
element left of the base, and what is left of the target follows. -/
def Rel (basepath targpath : String) : Option String :=
  let base := Clean basepath
  let targ := Clean targpath
  if targ = base then some "."
  else
    let base := if base = "." then "" else base
    let baseSlashed := hasPrefix base "/"
    let targSlashed := hasPrefix targ "/"
    if baseSlashed ≠ targSlashed then none
    else
      match relLoop (base.data.length + 1) base.data targ.data with
      | (brest, belem, trest) =>
        if belem = ['.', '.'] then none
        else if brest ≠ [] then
          let seps := brest.count '/'
          let ups := ['.', '.'] ++ (List.replicate seps ['/', '.', '.']).flatten
          some (String.mk (if trest ≠ [] then ups ++ '/' :: trest else ups))
        else some (String.mk trest)

/-! ## Classification (`isTopLevelDot`, `excludeTops`, `isTempFile`) -/

/-- The process-wide variables `homeDir`, `dotfilesDir`, `dryRun`. -/
structure Config where
  homeDir : String
  dotfilesDir : String
  dryRun : Bool

/-- The keys of the map `excludeTops`. -/
def excludeTops : List String :=
  [".DS_Store", ".localized", ".Trash", ".git", ".dotfiles", ".TemporaryItems",
   ".fseventsd", "Library", "Applications", "Desktop", "Downloads"]

/-- The slice `tempSuffixes`. -/
def tempSuffixes : List String := ["~", ".swp", ".swx", ".tmp"]

/-- Source `isTopLevelDot`. -/
def isTopLevelDot (homeDir p : String) : Bool × String :=
  match Rel homeDir p with
  | none => (false, "")
  | some rel =>
    if rel = "." ∨ rel = "" then (false, "")
    else
      match splitSep rel.data with
      | [] => (false, "")
      | part0 :: _ =>
        if hasPrefix (String.mk part0) "." then (true, String.mk part0)
        else (false, "")

/-- Source `isTempFile`. -/
def isTempFile (name : String) : Bool :=
  tempSuffixes.any (fun s => hasSuffix name s) || hasPrefix name ".#"

/-! ## The filesystem

The operating system is not part of the program; what follows is the model of
it the program is run against. A path names the entry stored under the
elements of its cleaned form (`pathKey`), so directories on the way to an entry
are taken literally: a symlink is followed only as the last element of a path.
There are no hard links. Every call can be refused by the environment
(`Env.deny`) whatever the state. -/

/-- The elements of a cleaned path; the root is the one empty element that
starts every rooted path. -/
abbrev Key := List String

/-- What a directory entry is. A symlink stores the path it points to. -/
inductive Node
  | file (content : String)
  | dir
  | symlink (target : String)
  deriving DecidableEq, Repr

/-- A filesystem state: the entries with what they are. The first pair of a key
is its entry. -/
abbrev FS := List (Key × Node)

/-- The key a path string names. -/
def pathKey (p : String) : Key :=
  let c := Clean p
  if c = "/" then [""] else (splitSep c.data).map String.mk

/-- The entry stored at a key, symlinks not followed. -/
def look : FS → Key → Option Node
  | [], _ => none
  | (k', n) :: rest, k => if k' = k then some n else look rest k

/-- Key `k` is `a` or lies beneath it. -/
def under (a k : Key) : Bool := a.isPrefixOf k

/-- Some entry lies strictly beneath `k`. -/
def hasChild (fs : FS) (k : Key) : Bool :=
  fs.any (fun e => under k e.1 && decide (e.1 ≠ k))

/-- Drop the entry at `k`. -/
def eraseKey (fs : FS) (k : Key) : FS := fs.filter (fun e => decide (e.1 ≠ k))

/-- Put `n` at `k`, replacing the entry there. -/
def setNode (fs : FS) (k : Key) (n : Node) : FS :=
  (k, n) :: eraseKey fs k

/-- The tree at `ks` re-rooted at `kd`; what was at or beneath `kd` is gone. -/
def moveTree (fs : FS) (ks kd : Key) : FS :=
  (fs.filter (fun e => under ks e.1)).map (fun e => (kd ++ e.1.drop ks.length, e.2))
    ++ fs.filter (fun e => !under ks e.1 && !under kd e.1)

/-- The key a symlink at `k` with target `t` points to: `t` itself when rooted,
else `t` taken from the directory holding the symlink. -/
def targetKey (k : Key) (t : String) : Key :=
  if hasPrefix t "/" then pathKey t
  else pathKey (String.mk (joinSep ((k.dropLast ++ [t]).map String.data)))

/-- Follow symlinks from `k` to the first key that is not a symlink (it may hold
nothing); `none` after too many links. -/
def resolveKey (fs : FS) : Nat → Key → Option Key
  | 0, _ => none
  | n + 1, k =>
    match look fs k with
    | some (.symlink t) => resolveKey fs n (targetKey k t)
    | _ => some k

/-- The number of symlinks followed before giving up. -/
def maxLinks : Nat := 40

/-- The entry a key leads to, symlinks followed. -/
def lookFollow (fs : FS) (k : Key) : Option Node :=
  match resolveKey fs maxLinks k with
  | none => none
  | some k' => look fs k'

/-- The calls the program makes on its environment. -/
inductive Call
  | lstat (p : String)
  | stat (p : String)
  | mkdirAll (p : String)
  | rename (src dst : String)
  | openFile (p : String)
  | create (p : String)
  | copy (dst src : Key)
  | remove (p : String)
  | readDir (p : String)
  | exec (dir : String) (args : List String)
  deriving DecidableEq, Repr

/-- A call that can change the filesystem or runs a command. -/
def Call.mutates : Call → Bool
  | .lstat _ => false
  | .stat _ => false
  | .openFile _ => false
  | .readDir _ => false
  | _ => true

/-- What the program cannot see: the formatted result of `time.Now()`, which
calls fail for reasons outside the modelled state (permissions, a rename across
devices, a full disk), given the calls made so far, and what running an
external command does to the filesystem. -/
structure Env where
  now : String
  deny : List (Call × Bool) → Call → Bool
  run : String → List String → FS → Bool × FS

/-- The filesystem and the calls made so far, oldest first, each with whether
it succeeded. -/
structure World where
  fs : FS
  log : List (Call × Bool)

/-- Record a call and its outcome. -/
def World.note (w : World) (c : Call) (ok : Bool) (fs : FS) : World :=
  { fs := fs, log := w.log ++ [(c, ok)] }

/-- Model of `os.Lstat`: the entry at the path, symlinks not followed; the
error result is `none`. It fails when nothing is there and when the call is
refused. -/
def osLstat (E : Env) (w : World) (p : String) : Option Node × World :=
  let c := Call.lstat p
  let r := if E.deny w.log c then none else look w.fs (pathKey p)
  (r, w.note c r.isSome w.fs)

/-- Model of `os.Stat`: as `osLstat`, symlinks followed. -/
def osStat (E : Env) (w : World) (p : String) : Option Node × World :=
  let c := Call.stat p
  let r := if E.deny w.log c then none else lookFollow w.fs (pathKey p)
  (r, w.note c r.isSome w.fs)

/-- The nonempty initial segments of a key, shortest first. -/
def prefixes (k : Key) : List Key := (k.inits).filter (fun a => decide (a ≠ []))

/-- Model of `os.MkdirAll`: fails when an element of the path is there and is
not a directory; otherwise the missing directories are created. -/
def osMkdirAll (E : Env) (w : World) (p : String) : Bool × World :=
  let c := Call.mkdirAll p
  let ks := prefixes (pathKey p)
  if E.deny w.log c || ks.any (fun a => decide (look w.fs a ≠ none ∧ look w.fs a ≠ some .dir))
  then (false, w.note c false w.fs)
  else
    let missing := ks.filter (fun a => decide (look w.fs a = none))
    (true, w.note c true (w.fs ++ missing.map (fun a => (a, Node.dir))))

/-- Whether `os.Rename` accepts the pair. Go refuses a destination that is a
directory before it calls `rename(2)`; `rename(2)` wants the source to be
there, neither path beneath the other, the directory to hold the destination
to be there, and lets only a non-directory replace a non-directory. Renaming a
non-directory to itself succeeds. -/
def renameOk (fs : FS) (ks kd : Key) : Bool :=
  if look fs kd = some .dir then false
  else
    match look fs ks with
    | none => false
    | some n =>
      if ks = kd then true
      else if under ks kd || under kd ks then false
      else if look fs kd.dropLast ≠ some .dir then false
      else
        match look fs kd with
        | none => true
        | some _ => decide (n ≠ .dir)

/-- Model of `os.Rename`. -/
def osRename (E : Env) (w : World) (src dst : String) : Bool × World :=
  let c := Call.rename src dst
  let ks := pathKey src
  let kd := pathKey dst
  if E.deny w.log c || !renameOk w.fs ks kd then (false, w.note c false w.fs)
  else if ks = kd then (true, w.note c true w.fs)
  else (true, w.note c true (moveTree w.fs ks kd))

/-- Model of `os.Open`: the open file is named by the key the path leads to. -/
def osOpen (E : Env) (w : World) (p : String) : Option Key × World :=
  let c := Call.openFile p
  match resolveKey w.fs maxLinks (pathKey p) with
  | none => (none, w.note c false w.fs)
  | some k =>
    if E.deny w.log c || look w.fs k = none then (none, w.note c false w.fs)
    else (some k, w.note c true w.fs)

/-- Model of `os.Create`: the file the path leads to is created empty or
truncated; it fails on a directory and where no directory holds the file. -/
def osCreate (E : Env) (w : World) (p : String) : Option Key × World :=
  let c := Call.create p
  match resolveKey w.fs maxLinks (pathKey p) with
  | none => (none, w.note c false w.fs)
  | some k =>
    if E.deny w.log c || look w.fs k = some .dir || look w.fs k.dropLast ≠ some .dir
    then (none, w.note c false w.fs)
    else (some k, w.note c true (setNode w.fs k (.file "")))

/-- Model of `io.Copy` between two open files: reading a directory fails; a
failed copy leaves the destination as it was when opened. -/
def ioCopy (E : Env) (w : World) (dstf srcf : Key) : Bool × World :=
  let c := Call.copy dstf srcf
  match look w.fs srcf with
  | some (.file bytes) =>
    if E.deny w.log c then (false, w.note c false w.fs)
    else (true, w.note c true (setNode w.fs dstf (.file bytes)))
  | _ => (false, w.note c false w.fs)

/-- Removal of the entry at a key, recorded as call `c`: a file, a symlink or
an empty directory is removed. -/
def removeKey (E : Env) (w : World) (c : Call) (k : Key) : Bool × World :=
  if E.deny w.log c || look w.fs k = none || (look w.fs k = some .dir && hasChild w.fs k)
  then (false, w.note c false w.fs)
  else (true, w.note c true (eraseKey w.fs k))

/-- Model of `os.Remove`. -/
def osRemove (E : Env) (w : World) (p : String) : Bool × World :=
  removeKey E w (.remove p) (pathKey p)

/-- Bytewise order of strings, as Go compares them. -/
def charsLe : List Char → List Char → Bool
  | [], _ => true
  | _ :: _, [] => false
  | a :: as, b :: bs => if a = b then charsLe as bs else decide (a.toNat < b.toNat)

/-- Order of keys element by element, a directory before what it holds: the
order in which `filepath.Walk` reaches them. -/
def keyLe : Key → Key → Bool
  | [], _ => true
  | _ :: _, [] => false
  | a :: as, b :: bs => if a = b then keyLe as bs else charsLe a.data b.data

/-- The path string of a key. -/
def keyPath (k : Key) : String :=
  if k = [""] then "/" else String.mk (joinSep (k.map String.data))

/-- The names directly inside the directory at `k`, each once, sorted. -/
def childNames (fs : FS) (k : Key) : List String :=
  ((fs.filterMap (fun e =>
      if under k e.1 ∧ e.1.length = k.length + 1 then e.1.getLast? else none)).dedup
    ).insertionSort (fun a b => charsLe a.data b.data = true)

/-- Model of `os.ReadDir`: the entries of a directory sorted by name, each with
what it is; the error result is `none`. -/
def osReadDir (E : Env) (w : World) (p : String) : Option (List (String × Node)) × World :=
  let c := Call.readDir p
  let k := pathKey p
  if E.deny w.log c || lookFollow w.fs k ≠ some .dir then (none, w.note c false w.fs)
  else
    let ents := (childNames w.fs k).filterMap (fun nm =>
      (look w.fs (k ++ [nm])).map (fun n => (nm, n)))
    (some ents, w.note c true w.fs)

/-- Model of running a command to completion (`exec.Cmd.Run`). -/
def runCmd (E : Env) (w : World) (dir : String) (args : List String) : Bool × World :=
  let r := E.run dir args w.fs
  (r.1, w.note (.exec dir args) r.1 r.2)

/-! ## The program -/

/-- Source `ensureDir`. -/
def ensureDir (E : Env) (w : World) (p : String) : Bool × World :=
  osMkdirAll E w p

/-- Source `backupPath`; `none` is the error result. -/
def backupPath (C : Config) (E : Env) (w : World) (p : String) : Option String × World :=
  let ts := E.now
  let b := Join [C.dotfilesDir, "backups", ts]
  match ensureDir E w b with
  | (false, w1) => (none, w1)
  | (true, w1) => (some (Join [b, Base p]), w1)

/-- Source `moveFile`; the result is `true` for a nil error. -/
def moveFile (E : Env) (w : World) (src dst : String) : Bool × World :=
  match osRename E w src dst with
  | (true, w1) => (true, w1)
  | (false, w1) =>
    match osOpen E w1 src with
    | (none, w2) => (false, w2)
    | (some srcf, w2) =>
      match osCreate E w2 dst with
      | (none, w3) => (false, w3)
      | (some dstf, w3) =>
        match ioCopy E w3 dstf srcf with
        | (false, w4) => (false, w4)
        | (true, w4) =>
          match osRemove E w4 src with
          | (false, w5) => (false, w5)
          | (true, w5) => (true, w5)

/-- The keys `filepath.Walk` reaches from `target` whose name is `.DS_Store`,
in the order it reaches them. -/
def dsStoreKeys (fs : FS) (target : Key) : List Key :=
  (((fs.map Prod.fst).filter (fun k =>
      under target k && decide (k.getLast? = some ".DS_Store"))).dedup
    ).insertionSort (fun a b => keyLe a b = true)

/-- The walk in `runStow`: every entry named `.DS_Store` at or beneath the
target is handed to `os.Remove`, whose error is dropped. An entry is reached
before anything beneath it, so whether a removal succeeds does not depend on
the removals made before it. -/
def removeDSStores (E : Env) (w : World) (target : String) : World :=
  (dsStoreKeys w.fs (pathKey target)).foldl
    (fun w k => (removeKey E w (.remove (keyPath k)) k).2) w

/-- Source `runStow`; the result is `true` for a nil error. -/
def runStow (C : Config) (E : Env) (w : World) (pkg : String) : Bool × World :=
  let target := if pkg ≠ "." then Join [C.dotfilesDir, pkg] else C.dotfilesDir
  let w1 := removeDSStores E w target
  runCmd E w1 C.dotfilesDir ["stow", "-v", "-t", C.homeDir, pkg]

/-- The backup step of `handlePath` (the body of `if _, err := os.Stat(destPath);
err == nil`). -/
def backupExisting (C : Config) (E : Env) (w : World) (destPath : String) : World :=
  match backupPath C E w destPath with
  | (some bk, w1) => if !C.dryRun then (moveFile E w1 destPath bk).2 else w1
  | (none, w1) => w1

/-- Source `handlePath`. Log lines are not modelled. -/
def handlePath (C : Config) (E : Env) (w : World) (p : String) : World :=
  match isTopLevelDot C.homeDir p with
  | (false, _) => w
  | (true, top) =>
    if top ∈ excludeTops then w
    else if top = ".DS_Store" then w
    else if isTempFile (Base p) then w
    else
      let topPath := Join [C.homeDir, top]
      match osLstat E w topPath with
      | (some (.symlink _), w1) => w1
      | (_, w1) =>
        let destPath := Join [C.dotfilesDir, top]
        let w3 :=
          match osStat E w1 destPath with
          | (some _, w2) => backupExisting C E w2 destPath
          | (none, w2) => w2
        if !C.dryRun then
          match moveFile E w3 topPath destPath with
          | (false, w4) => w4
          | (true, w4) => (runStow C E w4 ".").2
        else w3

/-- One turn of the loop of `importScan` on the entry `e`; `moved` is the
list built so far. -/
def importStep (C : Config) (E : Env) (st : List String × World) (e : String × Node) :
    List String × World :=
  let name := e.1
  if !hasPrefix name "." then st
  else if name ∈ excludeTops then st
  else if (match e.2 with | .symlink _ => true | _ => false) then st
  else if name = ".DS_Store" then st
  else
    let destPath := Join [C.dotfilesDir, name]
    match osStat E st.2 destPath with
    | (some _, w1) => (st.1, w1)
    | (none, w1) =>
      if !C.dryRun then
        match moveFile E w1 (Join [C.homeDir, name]) destPath with
        | (false, w2) => (st.1, w2)
        | (true, w2) => (st.1 ++ [name], (runStow C E w2 ".").2)
      else (st.1 ++ [name], w1)

/-- Source `importScan`. -/
def importScan (C : Config) (E : Env) (w : World) : List String × World :=
  match osReadDir E w C.homeDir with
  | (none, w1) => ([], w1)
  | (some entries, w1) => entries.foldl (importStep C E) ([], w1)


/-! ## The paths and stages of `handlePath` -/

/-- The value of `topPath` in `handlePath` for the top-level name `top`. -/
def topPathOf (C : Config) (top : String) : String := Join [C.homeDir, top]

/-- The value of `destPath` in `handlePath` for the top-level name `top`. -/
def destPathOf (C : Config) (top : String) : String := Join [C.dotfilesDir, top]

/-- The snapshot directory `b` of `backupPath`. -/
def snapshotDir (C : Config) (E : Env) : String := Join [C.dotfilesDir, "backups", E.now]

/-- The path `backupPath` returns for `destPath`. -/
def backupOf (C : Config) (E : Env) (top : String) : String :=
  Join [snapshotDir C E, Base (destPathOf C top)]

/-- The world after the `os.Lstat` and `os.Stat` of `handlePath`. -/
def afterProbe (C : Config) (E : Env) (w : World) (top : String) : World :=
  (osStat E (osLstat E w (topPathOf C top)).2 (destPathOf C top)).2

/-- The world after the backup step of `handlePath`: as `afterProbe` when
`os.Stat` fails. -/
def afterBackup (C : Config) (E : Env) (w : World) (top : String) : World :=
  match osStat E (osLstat E w (topPathOf C top)).2 (destPathOf C top) with
  | (some _, w2) => backupExisting C E w2 (destPathOf C top)
  | (none, w2) => w2

/-- The `os.MkdirAll` of the snapshot directory in the backup step. -/
def snapshotMkdir (C : Config) (E : Env) (w : World) (top : String) : Bool × World :=
  osMkdirAll E (afterProbe C E w top) (snapshotDir C E)

/-- The `os.Rename` of the destination into the snapshot directory. -/
def backupRename (C : Config) (E : Env) (w : World) (top : String) : Bool × World :=
  osRename E (snapshotMkdir C E w top).2 (destPathOf C top) (backupOf C E top)

/-- The `os.Rename` of the watched entry to the destination, after a backup
made by rename. -/
def moveRename (C : Config) (E : Env) (w : World) (top : String) : Bool × World :=
  osRename E (backupRename C E w top).2 (topPathOf C top) (destPathOf C top)

/-- A call that runs an external command. -/
def Call.isExec : Call → Bool
  | .exec _ _ => true
  | _ => false

/-- World `w2` continues `w1` by calls none of which runs a command. -/
def Quiet (w1 w2 : World) : Prop :=
  ∃ l, w2.log = w1.log ++ l ∧ ∀ c ∈ l, c.1.isExec = false

/-! ## What a scan keeps -/

/-- Every entry that state `fs0` has at or beneath `a`, other than entries
named `.DS_Store`, is the same in state `fs`. -/
def Kept (fs0 fs : FS) (a : Key) : Prop :=
  ∀ k, under a k = true → k.getLast? ≠ some ".DS_Store" → look fs0 k ≠ none →
    look fs k = look fs0 k

/-- Neither key lies at or beneath the other. -/
def apart (a b : Key) : Bool := !under a b && !under b a

/-! ## Elements of cleaned paths -/

/-- An element as `filepath.Clean` leaves them in a rooted path: not empty,
without a separator, neither `.` nor `..`. -/
def PlainName (x : List Char) : Prop :=
  '/' ∉ x ∧ x ≠ [] ∧ x ≠ ['.'] ∧ x ≠ ['.', '.']
/-! ## Example states -/

/-- An environment in which no call is refused and the linking tool changes
nothing. -/
def exEnv : Env :=
  { now := "20240101-120000", deny := fun _ _ => false, run := fun _ _ fs => (true, fs) }
/-- The default configuration: the repository is `.dotfiles` in the home
directory. -/
def exCfg : Config :=
  { homeDir := "/home/u", dotfilesDir := "/home/u/.dotfiles", dryRun := false }
/-- The default configuration with dry-run on. -/
def exDry : Config := { exCfg with dryRun := true }
/-- A home directory holding only the repository. -/
def exBase : FS :=
  [([""], .dir), (["", "home"], .dir), (["", "home", "u"], .dir),
   (["", "home", "u", ".dotfiles"], .dir)]
/-- `.x` both in the home directory and in the repository. -/
def exClash : FS :=
  exBase ++ [(["", "home", "u", ".dotfiles", ".x"], .file "old"),
             (["", "home", "u", ".x"], .file "new")]
/-- An editor swap file in the home directory. -/
def exSwap : FS := exBase ++ [(["", "home", "u", ".vimrc.swp"], .file "swap")]
/-- `.x` in the repository only. -/
def exGone : FS := exBase ++ [(["", "home", "u", ".dotfiles", ".x"], .file "old")]

/-- A directory `.cfg` both in the home directory and in the repository, the one
in the home directory holding a `.DS_Store`. -/
def exMac : FS :=
  exBase ++ [(["", "home", "u", ".dotfiles", ".cfg"], .dir),
             (["", "home", "u", ".dotfiles", ".cfg", "a"], .file "old"),
             (["", "home", "u", ".cfg"], .dir),
             (["", "home", "u", ".cfg", "a"], .file "new"),
             (["", "home", "u", ".cfg", ".DS_Store"], .file "icons")]
/-- An environment in which every rename is refused, as across devices. -/
def exXdev : Env :=
  { now := "20240101-120000",
    deny := fun _ c => match c with | .rename _ _ => true | _ => false,
    run := fun _ _ fs => (true, fs) }
/-- A file on one disk and a symlink to it on another. -/
def exLinked : FS :=
  [([""], .dir), (["", "mnt"], .dir), (["", "home"], .dir),
   (["", "mnt", "a"], .file "data"), (["", "home", "b"], .symlink "/mnt/a")]
/-- `.a` only in the home directory; `.b` in both, the repository's holding a
`.DS_Store`. -/
def exScan : FS :=
  exBase ++ [(["", "home", "u", ".a"], .file "a"),
             (["", "home", "u", ".b"], .dir),
             (["", "home", "u", ".dotfiles", ".b"], .dir),
             (["", "home", "u", ".dotfiles", ".b", ".DS_Store"], .file "icons")]
/-- `.x` in the repository, and a symlink to it in the home directory. -/
def exLinkedHome : FS :=
  exBase ++ [(["", "home", "u", ".dotfiles", ".x"], .file "kept"),
             (["", "home", "u", ".x"], .symlink ".dotfiles/.x")]
/-- A directory with a backup-style name in the home directory, holding a file. -/
def exTilde : FS :=
  exBase ++ [(["", "home", "u", ".cache~"], .dir),
             (["", "home", "u", ".cache~", "x"], .file "x")]
/-- An environment in which every `os.Lstat` is refused. -/
def exBlind : Env :=
  { now := "20240101-120000",
    deny := fun _ c => match c with | .lstat _ => true | _ => false,
    run := fun _ _ fs => (true, fs) }
/-- An environment in which renames and the making of directories are refused. -/
def exStuck : Env :=
  { now := "20240101-120000",
    deny := fun _ c => match c with | .rename _ _ => true | .mkdirAll _ => true | _ => false,
    run := fun _ _ fs => (true, fs) }
/-- A configuration with the repository on another disk. -/
def exFar : Config := { homeDir := "/home/u", dotfilesDir := "/mnt/dot", dryRun := false }
/-- `.x` in the home directory, and in the repository a symlink to it. -/
def exBackLink : FS :=
  [([""], .dir), (["", "home"], .dir), (["", "home", "u"], .dir), (["", "mnt"], .dir),
   (["", "mnt", "dot"], .dir), (["", "home", "u", ".x"], .file "data"),
   (["", "mnt", "dot", ".x"], .symlink "/home/u/.x")]
/-- `.a` and `.b` in the home directory; the repository's `.b` is a symlink to
the home directory's `.a`. -/
def exChain : FS :=
  exBase ++ [(["", "home", "u", ".a"], .file "a"),
             (["", "home", "u", ".b"], .file "b"),
             (["", "home", "u", ".dotfiles", ".b"], .symlink "/home/u/.a")]
/-! ## Lookup after the filesystem operations -/

theorem look_eq_none_of_keys (fs : FS) (k : Key) (h : ∀ e ∈ fs, e.1 ≠ k) :
    look fs k = none := by
  induction fs with
  | nil => rfl
  | cons e rest ih =>
    obtain ⟨k1, n⟩ := e
    have h1 : k1 ≠ k := h (k1, n) (List.mem_cons_self _ _)
    simp only [look, if_neg h1]
    exact ih (fun e he => h e (List.mem_cons_of_mem _ he))

theorem look_append (a b : FS) (k : Key) :
    look (a ++ b) k = (look a k).orElse (fun _ => look b k) := by
  induction a with
  | nil => simp [look]
  | cons e rest ih =>
    obtain ⟨k1, n⟩ := e
    by_cases h : k1 = k
    · simp [look, h]
    · simp [look, h, ih]

theorem look_filter_keep (fs : FS) (P : Key → Bool) (k : Key) (h : P k = true) :
    look (fs.filter (fun e => P e.1)) k = look fs k := by
  induction fs with
  | nil => rfl
  | cons e rest ih =>
    obtain ⟨k1, n⟩ := e
    by_cases hk : k1 = k
    · subst hk; simp [List.filter, h, look]
    · by_cases hp : P k1 = true
      · simp [List.filter, hp, look, hk, ih]
      · simp [List.filter, hp, look, hk, ih]

theorem look_filter_drop (fs : FS) (P : Key → Bool) (k : Key) (h : P k = false) :
    look (fs.filter (fun e => P e.1)) k = none := by
  apply look_eq_none_of_keys
  intro e he hk
  rw [List.mem_filter] at he
  rw [hk, h] at he
  exact Bool.false_ne_true he.2

theorem under_iff (a k : Key) : under a k = true ↔ a <+: k := by
  simp [under]

theorem under_append (a r : Key) : under a (a ++ r) = true := by
  simp [under]

/-- Re-rooting looks up beneath the destination what was beneath the source. -/
theorem look_moveTree_dst (fs : FS) (ks kd r : Key) :
    look (moveTree fs ks kd) (kd ++ r) = look fs (ks ++ r) := by
  unfold moveTree
  rw [look_append]
  rw [look_filter_drop fs (fun k => !under ks k && !under kd k) (kd ++ r)
    (by simp [under_append])]
  have h1 : look ((fs.filter (fun e => under ks e.1)).map
      (fun e => (kd ++ e.1.drop ks.length, e.2))) (kd ++ r) = look fs (ks ++ r) := by
    induction fs with
    | nil => rfl
    | cons e rest ih =>
      obtain ⟨k1, n⟩ := e
      by_cases hu : under ks k1 = true
      · obtain ⟨s, rfl⟩ := (under_iff ks k1).1 hu
        simp only [List.filter, hu, List.map_cons, look, List.drop_left,
          List.append_cancel_left_eq]
        by_cases hs : s = r
        · simp [hs]
        · simp [hs, ih]
      · have hne : k1 ≠ ks ++ r := by
          intro he; apply hu; rw [he]; exact under_append ks r
        simp [List.filter, hu, look, hne, ih]
  rw [h1]
  cases look fs (ks ++ r) <;> rfl

theorem look_moveTree_other (fs : FS) (ks kd k : Key)
    (h1 : under ks k = false) (h2 : under kd k = false) :
    look (moveTree fs ks kd) k = look fs k := by
  unfold moveTree
  rw [look_append]
  have hA : look ((fs.filter (fun e => under ks e.1)).map
      (fun e => (kd ++ e.1.drop ks.length, e.2))) k = none := by
    apply look_eq_none_of_keys
    intro e he hk
    rw [List.mem_map] at he
    obtain ⟨e0, _, rfl⟩ := he
    simp only at hk
    rw [← hk, under_append] at h2
    exact Bool.noConfusion h2
  rw [hA]
  exact look_filter_keep fs (fun k => !under ks k && !under kd k) k (by simp [h1, h2])

theorem look_moveTree_src (fs : FS) (ks kd k : Key)
    (h1 : under ks k = true) (h2 : under kd k = false) :
    look (moveTree fs ks kd) k = none := by
  unfold moveTree
  rw [look_append]
  have hA : look ((fs.filter (fun e => under ks e.1)).map
      (fun e => (kd ++ e.1.drop ks.length, e.2))) k = none := by
    apply look_eq_none_of_keys
    intro e he hk
    rw [List.mem_map] at he
    obtain ⟨e0, _, rfl⟩ := he
    simp only at hk
    rw [← hk, under_append] at h2
    exact Bool.noConfusion h2
  rw [hA]
  exact look_filter_drop fs (fun k => !under ks k && !under kd k) k (by simp [h1])

/-- Two keys neither of which lies at or beneath the other stay so below. -/
theorem under_append_false (a b r : Key) (h1 : under a b = false) (h2 : under b a = false) :
    under a (b ++ r) = false := by
  by_contra hc
  have hc1 : under a (b ++ r) = true := by simpa using hc
  rw [under_iff] at hc1
  have hb : b <+: b ++ r := List.prefix_append b r
  rcases List.prefix_or_prefix_of_prefix hc1 hb with h | h
  · rw [← under_iff] at h; rw [h] at h1; exact Bool.noConfusion h1
  · rw [← under_iff] at h; rw [h] at h2; exact Bool.noConfusion h2


theorem mem_prefixes (a k : Key) (h : a ∈ prefixes k) : a <+: k := by
  unfold prefixes at h
  rw [List.mem_filter, List.mem_inits] at h
  exact h.1

/-- Creating directories on the way to `p` changes nothing at or beneath a key
that is not on that way. -/
theorem look_mkdirAll_frame (E : Env) (w : World) (p : String) (a r : Key)
    (h : under a (pathKey p) = false) :
    look (osMkdirAll E w p).2.fs (a ++ r) = look w.fs (a ++ r) := by
  unfold osMkdirAll
  simp only
  split_ifs
  · rfl
  · simp only [World.note]
    rw [look_append]
    have hnone : look (((prefixes (pathKey p)).filter
        (fun a => decide (look w.fs a = none))).map (fun a => (a, Node.dir))) (a ++ r)
        = none := by
      apply look_eq_none_of_keys
      intro e he hk
      rw [List.mem_map] at he
      obtain ⟨q, hq, rfl⟩ := he
      simp only at hk
      have hq1 : q <+: pathKey p := mem_prefixes q _ (List.mem_filter.1 hq).1
      have : a <+: pathKey p := (hk ▸ List.prefix_append a r).trans hq1
      rw [← under_iff] at this
      rw [this] at h
      exact Bool.noConfusion h
    rw [hnone]
    cases look w.fs (a ++ r) <;> rfl

theorem osRename_true (E : Env) (w : World) (src dst : String)
    (h : (osRename E w src dst).1 = true) :
    renameOk w.fs (pathKey src) (pathKey dst) = true ∧
      (osRename E w src dst).2.fs =
        if pathKey src = pathKey dst then w.fs
        else moveTree w.fs (pathKey src) (pathKey dst) := by
  unfold osRename at h ⊢
  simp only at h ⊢
  split_ifs at h ⊢ <;> simp_all [World.note]

theorem renameOk_apart (fs : FS) (ks kd : Key) (h : renameOk fs ks kd = true)
    (hne : ks ≠ kd) :
    look fs ks ≠ none ∧ under ks kd = false ∧ under kd ks = false := by
  unfold renameOk at h
  by_cases hd : look fs kd = some .dir
  · rw [if_pos hd] at h; exact absurd h (by simp)
  rw [if_neg hd] at h
  split at h
  · exact absurd h (by simp)
  · next n hn =>
    rw [if_neg hne] at h
    by_cases h1 : (under ks kd || under kd ks) = true
    · rw [if_pos h1] at h; exact absurd h (by simp)
    · simp only [Bool.or_eq_true, not_or, Bool.not_eq_true] at h1
      exact ⟨by simp [hn], h1.1, h1.2⟩

theorem moveFile_of_rename (E : Env) (w : World) (src dst : String)
    (h : (osRename E w src dst).1 = true) :
    moveFile E w src dst = (true, (osRename E w src dst).2) := by
  unfold moveFile
  split
  · next w1 heq => rw [heq]
  · next w1 heq => rw [heq] at h; exact absurd h (by simp)

/-- What `handlePath` does once the path is classified as relocatable and the
top-level entry is not a symlink. -/
theorem handlePath_relocatable (C : Config) (E : Env) (w : World) (p X : String)
    (hcls : isTopLevelDot C.homeDir p = (true, X)) (hex : X ∉ excludeTops)
    (htmp : isTempFile (Base p) = false)
    (hns : ∀ t, (osLstat E w (topPathOf C X)).1 ≠ some (.symlink t)) :
    handlePath C E w p =
      if !C.dryRun then
        match moveFile E (afterBackup C E w X) (topPathOf C X) (destPathOf C X) with
        | (false, w4) => w4
        | (true, w4) => (runStow C E w4 ".").2
      else afterBackup C E w X := by
  have hds : X ≠ ".DS_Store" := by
    intro h; apply hex; rw [h]; decide
  unfold handlePath
  rw [hcls]
  simp only [if_neg hex, if_neg hds, htmp, Bool.false_eq_true, if_false]
  split
  · next t w1 heq =>
    exfalso
    apply hns t
    have := congrArg Prod.fst heq
    simpa [topPathOf] using this
  · next n w1 _ heq =>
    have hw1 : w1 = (osLstat E w (topPathOf C X)).2 := by
      have := congrArg Prod.snd heq
      simpa [topPathOf] using this.symm
    subst hw1
    rfl

/-- The backup step when `os.Stat` finds the destination, the snapshot
directory can be made and the rename into it succeeds. -/
theorem afterBackup_of_rename (C : Config) (E : Env) (w : World) (X : String)
    (hdry : C.dryRun = false)
    (hrepo : (osStat E (osLstat E w (topPathOf C X)).2 (destPathOf C X)).1 ≠ none)
    (hmk : (osMkdirAll E (afterProbe C E w X) (snapshotDir C E)).1 = true)
    (hbk : (osRename E (osMkdirAll E (afterProbe C E w X) (snapshotDir C E)).2
      (destPathOf C X) (backupOf C E X)).1 = true) :
    afterBackup C E w X =
      (osRename E (osMkdirAll E (afterProbe C E w X) (snapshotDir C E)).2
        (destPathOf C X) (backupOf C E X)).2 := by
  unfold afterBackup
  split
  · next n w2 heq =>
    have hw2 : w2 = afterProbe C E w X := by
      have := congrArg Prod.snd heq
      simpa [afterProbe] using this.symm
    subst hw2
    unfold backupExisting backupPath ensureDir
    simp only
    split
    · next bk w1 heq2 =>
      split at heq2
      · exact absurd heq2 (by simp)
      · next w1b hmkeq =>
        simp only [Prod.mk.injEq, Option.some.injEq] at heq2
        obtain ⟨hb, hw⟩ := heq2
        have hw1 : w1b = (osMkdirAll E (afterProbe C E w X) (snapshotDir C E)).2 := by
          have := congrArg Prod.snd hmkeq
          simpa [snapshotDir] using this.symm
        subst hw
        subst hw1
        have hb2 : bk = backupOf C E X := by
          rw [← hb]; rfl
        subst hb2
        simp only [hdry, Bool.not_false, if_true]
        rw [moveFile_of_rename E _ _ _ hbk]
    · next w1 heq2 =>
      split at heq2
      · next w1b hmkeq =>
        have := congrArg Prod.fst hmkeq
        simp only [snapshotDir] at hmk
        simp only at this
        rw [this] at hmk
        exact absurd hmk (by simp)
      · exact absurd heq2 (by simp)
  · next w2 heq =>
    exfalso
    apply hrepo
    have := congrArg Prod.fst heq
    simpa using this

theorem Quiet.refl (w : World) : Quiet w w := ⟨[], by simp, by simp⟩

theorem Quiet.trans {a b c : World} (h1 : Quiet a b) (h2 : Quiet b c) : Quiet a c := by
  obtain ⟨l1, e1, n1⟩ := h1
  obtain ⟨l2, e2, n2⟩ := h2
  refine ⟨l1 ++ l2, by rw [e2, e1, List.append_assoc], ?_⟩
  intro x hx
  rcases List.mem_append.1 hx with h | h
  · exact n1 x h
  · exact n2 x h

theorem Quiet.note (w : World) (c : Call) (ok : Bool) (fs : FS) (hc : c.isExec = false) :
    Quiet w (w.note c ok fs) :=
  ⟨[(c, ok)], rfl, by simp [hc]⟩

theorem osLstat_quiet (E : Env) (w : World) (p : String) : Quiet w (osLstat E w p).2 :=
  Quiet.note _ _ _ _ rfl

theorem osStat_quiet (E : Env) (w : World) (p : String) : Quiet w (osStat E w p).2 :=
  Quiet.note _ _ _ _ rfl

theorem osMkdirAll_quiet (E : Env) (w : World) (p : String) :
    Quiet w (osMkdirAll E w p).2 := by
  unfold osMkdirAll
  simp only
  split_ifs <;> exact Quiet.note _ _ _ _ rfl

theorem osRename_quiet (E : Env) (w : World) (s d : String) :
    Quiet w (osRename E w s d).2 := by
  unfold osRename
  simp only
  split_ifs <;> exact Quiet.note _ _ _ _ rfl

theorem osOpen_quiet (E : Env) (w : World) (p : String) : Quiet w (osOpen E w p).2 := by
  unfold osOpen
  simp only
  split
  · exact Quiet.note _ _ _ _ rfl
  · split_ifs <;> exact Quiet.note _ _ _ _ rfl

theorem osCreate_quiet (E : Env) (w : World) (p : String) : Quiet w (osCreate E w p).2 := by
  unfold osCreate
  simp only
  split
  · exact Quiet.note _ _ _ _ rfl
  · split_ifs <;> exact Quiet.note _ _ _ _ rfl

theorem ioCopy_quiet (E : Env) (w : World) (d s : Key) : Quiet w (ioCopy E w d s).2 := by
  unfold ioCopy
  simp only
  split
  · split_ifs <;> exact Quiet.note _ _ _ _ rfl
  · exact Quiet.note _ _ _ _ rfl

theorem osRemove_quiet (E : Env) (w : World) (p : String) : Quiet w (osRemove E w p).2 := by
  unfold osRemove removeKey
  split_ifs <;> exact Quiet.note _ _ _ _ rfl

theorem moveFile_quiet (E : Env) (w : World) (s d : String) :
    Quiet w (moveFile E w s d).2 := by
  have h1 := osRename_quiet E w s d
  unfold moveFile
  split
  · next w1 e1 => rw [e1] at h1; exact h1
  · next w1 e1 =>
    rw [e1] at h1
    have h2 := osOpen_quiet E w1 s
    split
    · next w2 e2 => rw [e2] at h2; exact h1.trans h2
    · next srcf w2 e2 =>
      rw [e2] at h2
      have h3 := osCreate_quiet E w2 d
      split
      · next w3 e3 => rw [e3] at h3; exact (h1.trans h2).trans h3
      · next dstf w3 e3 =>
        rw [e3] at h3
        have h4 := ioCopy_quiet E w3 dstf srcf
        split
        · next w4 e4 => rw [e4] at h4; exact ((h1.trans h2).trans h3).trans h4
        · next w4 e4 =>
          rw [e4] at h4
          have h5 := osRemove_quiet E w4 s
          split
          · next w5 e5 => rw [e5] at h5; exact (((h1.trans h2).trans h3).trans h4).trans h5
          · next w5 e5 => rw [e5] at h5; exact (((h1.trans h2).trans h3).trans h4).trans h5

theorem backupExisting_quiet (C : Config) (E : Env) (w : World) (d : String) :
    Quiet w (backupExisting C E w d) := by
  have h1 := osMkdirAll_quiet E w (Join [C.dotfilesDir, "backups", E.now])
  unfold backupExisting backupPath ensureDir
  simp only
  split
  · next bk w1 heq =>
    split at heq
    · exact absurd heq (by simp)
    · next w1b hmk =>
      simp only [Prod.mk.injEq, Option.some.injEq] at heq
      obtain ⟨_, rfl⟩ := heq
      rw [hmk] at h1
      split_ifs
      · exact h1.trans (moveFile_quiet E _ _ _)
      · exact h1
  · next w1 heq =>
    split at heq
    · next w1b hmk =>
      simp only [Prod.mk.injEq, true_and] at heq
      subst heq
      rw [hmk] at h1
      exact h1
    · exact absurd heq (by simp)

theorem afterBackup_quiet (C : Config) (E : Env) (w : World) (X : String) :
    Quiet w (afterBackup C E w X) := by
  have h1 := (osLstat_quiet E w (topPathOf C X)).trans
    (osStat_quiet E (osLstat E w (topPathOf C X)).2 (destPathOf C X))
  unfold afterBackup
  split
  · next n w2 heq =>
    rw [heq] at h1
    exact h1.trans (backupExisting_quiet C E w2 _)
  · next w2 heq =>
    rw [heq] at h1
    exact h1

theorem look_eraseKey_same (fs : FS) (k : Key) : look (eraseKey fs k) k = none :=
  look_filter_drop fs (fun a => decide (a ≠ k)) k (by simp)

theorem look_eraseKey_other (fs : FS) (k a : Key) (h : a ≠ k) :
    look (eraseKey fs k) a = look fs a :=
  look_filter_keep fs (fun a => decide (a ≠ k)) a (by simp [h])

theorem look_setNode_same (fs : FS) (k : Key) (n : Node) : look (setNode fs k n) k = some n := by
  simp [setNode, look]

theorem look_setNode_other (fs : FS) (k a : Key) (n : Node) (h : a ≠ k) :
    look (setNode fs k n) a = look fs a := by
  simp only [setNode, look, if_neg (Ne.symm h)]
  exact look_eraseKey_other fs k a h

theorem osRename_false_fs (E : Env) (w : World) (s d : String)
    (h : (osRename E w s d).1 = false) : (osRename E w s d).2.fs = w.fs := by
  unfold osRename at h ⊢
  simp only at h ⊢
  split_ifs at h ⊢
  rfl

theorem osOpen_fs (E : Env) (w : World) (p : String) : (osOpen E w p).2.fs = w.fs := by
  unfold osOpen
  simp only
  split
  · rfl
  · split_ifs <;> rfl

theorem osCreate_some (E : Env) (w : World) (p : String) (k : Key)
    (h : (osCreate E w p).1 = some k) :
    resolveKey w.fs maxLinks (pathKey p) = some k ∧
      (osCreate E w p).2.fs = setNode w.fs k (.file "") := by
  unfold osCreate at h ⊢
  simp only at h ⊢
  split at h
  · exact absurd h (by simp)
  · next k1 hk =>
    rw [hk]
    by_cases hc : (E.deny w.log (Call.create p) || decide (look w.fs k1 = some Node.dir) ||
        decide (look w.fs k1.dropLast ≠ some Node.dir)) = true
    · rw [if_pos hc] at h; exact absurd h (by simp)
    · rw [if_neg hc] at h ⊢
      simp only [Option.some.injEq] at h
      subst h
      exact ⟨rfl, rfl⟩

/-- A turn of the scan loop adds at most the name of its own entry. -/
theorem importStep_names (C : Config) (E : Env) (st : List String × World)
    (e : String × Node) (x : String) (h : x ∈ (importStep C E st e).1) :
    x ∈ st.1 ∨ x = e.1 := by
  unfold importStep at h
  simp only at h
  split_ifs at h
  · exact Or.inl h
  · exact Or.inl h
  · exact Or.inl h
  · exact Or.inl h
  · split at h
    · exact Or.inl h
    · split at h
      · exact Or.inl h
      · simpa using h
  · split at h
    · exact Or.inl h
    · simpa using h

/-- A turn for an entry whose destination `os.Stat` finds does nothing else. -/
theorem importStep_skip (C : Config) (E : Env) (st : List String × World) (Y : String)
    (n : Node) (h : (osStat E st.2 (destPathOf C Y)).1 ≠ none) :
    importStep C E st (Y, n) = st ∨
      importStep C E st (Y, n) = (st.1, (osStat E st.2 (destPathOf C Y)).2) := by
  unfold importStep
  simp only
  split_ifs
  · exact Or.inl rfl
  · exact Or.inl rfl
  · exact Or.inl rfl
  · exact Or.inl rfl
  · split
    · next v w1 heq =>
      right
      have : w1 = (osStat E st.2 (destPathOf C Y)).2 := by
        have := congrArg Prod.snd heq
        simpa [destPathOf] using this.symm
      rw [this]
    · next w1 heq =>
      exfalso; apply h
      have := congrArg Prod.fst heq
      simpa [destPathOf] using this
  · split
    · next v w1 heq =>
      right
      have : w1 = (osStat E st.2 (destPathOf C Y)).2 := by
        have := congrArg Prod.snd heq
        simpa [destPathOf] using this.symm
      rw [this]
    · next w1 heq =>
      exfalso; apply h
      have := congrArg Prod.fst heq
      simpa [destPathOf] using this

/-! ## What the operations leave alone -/

theorem look_removeKey_other (E : Env) (w : World) (c : Call) (q k : Key) (h : q ≠ k) :
    look (removeKey E w c q).2.fs k = look w.fs k := by
  unfold removeKey
  split_ifs
  · rfl
  · exact look_eraseKey_other _ _ _ (Ne.symm h)

theorem look_removeKey_or (E : Env) (w : World) (c : Call) (q k : Key) :
    look (removeKey E w c q).2.fs k = look w.fs k ∨ look (removeKey E w c q).2.fs k = none := by
  by_cases h : q = k
  · subst h
    unfold removeKey
    split_ifs
    · exact Or.inl rfl
    · exact Or.inr (look_eraseKey_same _ _)
  · exact Or.inl (look_removeKey_other E w c q k h)

theorem look_foldl_removeKey (E : Env) (L : List Key) (w : World) (k : Key)
    (h : ∀ q ∈ L, q ≠ k) :
    look (L.foldl (fun w q => (removeKey E w (.remove (keyPath q)) q).2) w).fs k
      = look w.fs k := by
  induction L generalizing w with
  | nil => rfl
  | cons q rest ih =>
    rw [List.foldl_cons, ih _ (fun x hx => h x (List.mem_cons_of_mem _ hx))]
    exact look_removeKey_other E w _ q k (h q (List.mem_cons_self _ _))

theorem look_foldl_removeKey_or (E : Env) (L : List Key) (w : World) (k : Key) :
    look (L.foldl (fun w q => (removeKey E w (.remove (keyPath q)) q).2) w).fs k
        = look w.fs k ∨
      look (L.foldl (fun w q => (removeKey E w (.remove (keyPath q)) q).2) w).fs k
        = none := by
  induction L generalizing w with
  | nil => exact Or.inl rfl
  | cons q rest ih =>
    rw [List.foldl_cons]
    rcases ih (removeKey E w (.remove (keyPath q)) q).2 with h | h
    · rcases look_removeKey_or E w (.remove (keyPath q)) q k with h1 | h1
      · exact Or.inl (h.trans h1)
      · exact Or.inr (h.trans h1)
    · exact Or.inr h

theorem mem_dsStoreKeys (fs : FS) (t q : Key) (h : q ∈ dsStoreKeys fs t) :
    q.getLast? = some ".DS_Store" := by
  unfold dsStoreKeys at h
  rw [(List.perm_insertionSort _ _).mem_iff, List.mem_dedup, List.mem_filter] at h
  have h2 := h.2
  simp only [Bool.and_eq_true, decide_eq_true_eq] at h2
  exact h2.2

/-- The walk of `runStow` leaves every entry not named `.DS_Store` as it is. -/
theorem removeDSStores_look (E : Env) (w : World) (target : String) (k : Key)
    (h : k.getLast? ≠ some ".DS_Store") :
    look (removeDSStores E w target).fs k = look w.fs k := by
  unfold removeDSStores
  apply look_foldl_removeKey
  intro q hq hqk
  apply h
  rw [← hqk]
  exact mem_dsStoreKeys _ _ _ hq

/-- The walk of `runStow` leaves an entry as it is or, when it is named
`.DS_Store`, may remove it. -/
theorem removeDSStores_look_or (E : Env) (w : World) (target : String) (k : Key) :
    look (removeDSStores E w target).fs k = look w.fs k ∨
      (k.getLast? = some ".DS_Store" ∧ look (removeDSStores E w target).fs k = none) := by
  by_cases h : k.getLast? = some ".DS_Store"
  · rcases look_foldl_removeKey_or E (dsStoreKeys w.fs (pathKey target)) w k with h1 | h1
    · exact Or.inl h1
    · exact Or.inr ⟨h, h1⟩
  · exact Or.inl (removeDSStores_look E w target k h)

theorem runStow_root_fs (C : Config) (E : Env) (w : World) :
    (runStow C E w ".").2.fs =
      (E.run C.dotfilesDir ["stow", "-v", "-t", C.homeDir, "."]
        (removeDSStores E w C.dotfilesDir).fs).2 := by
  simp [runStow, runCmd, World.note]

theorem osRename_look (E : Env) (w : World) (s d : String) (k : Key)
    (h1 : under (pathKey s) k = false) (h2 : under (pathKey d) k = false) :
    look (osRename E w s d).2.fs k = look w.fs k := by
  unfold osRename
  simp only
  split_ifs
  · rfl
  · rfl
  · exact look_moveTree_other _ _ _ _ h1 h2

theorem osCreate_look (E : Env) (w : World) (p : String) (k : Key)
    (h : ∀ dstf, resolveKey w.fs maxLinks (pathKey p) = some dstf → dstf ≠ k) :
    look (osCreate E w p).2.fs k = look w.fs k := by
  unfold osCreate
  simp only
  split
  · rfl
  · next dstf hd =>
    split_ifs
    · rfl
    · exact look_setNode_other _ _ _ _ (Ne.symm (h dstf hd))

theorem ioCopy_look (E : Env) (w : World) (d s k : Key) (h : d ≠ k) :
    look (ioCopy E w d s).2.fs k = look w.fs k := by
  unfold ioCopy
  simp only
  split
  · split_ifs
    · rfl
    · exact look_setNode_other _ _ _ _ (Ne.symm h)
  · rfl

theorem osRemove_look (E : Env) (w : World) (p : String) (k : Key) (h : pathKey p ≠ k) :
    look (osRemove E w p).2.fs k = look w.fs k :=
  look_removeKey_other E w _ _ k h

theorem under_self (k : Key) : under k k = true := by simp [under]

/-- `moveFile` leaves alone every entry that is neither at or beneath one of
its two paths nor the file the destination leads to. -/
theorem moveFile_look (E : Env) (w : World) (s d : String) (k : Key)
    (hdst : ∀ dstf, resolveKey w.fs maxLinks (pathKey d) = some dstf → dstf ≠ k)
    (h1 : under (pathKey s) k = false) (h2 : under (pathKey d) k = false) :
    look (moveFile E w s d).2.fs k = look w.fs k := by
  have hsk : pathKey s ≠ k := by
    intro he
    rw [he, under_self] at h1
    exact Bool.noConfusion h1
  have hr := osRename_look E w s d k h1 h2
  unfold moveFile
  split
  · next w1 e1 => rw [e1] at hr; exact hr
  · next w1 e1 =>
    have hfs1 : w1.fs = w.fs := by
      have := osRename_false_fs E w s d (by rw [e1])
      rw [e1] at this
      exact this
    have ho := osOpen_fs E w1 s
    split
    · next w2 e2 => rw [e2] at ho; simp only at ho ⊢; rw [ho, hfs1]
    · next srcf w2 e2 =>
      rw [e2] at ho
      simp only at ho
      have hfs2 : w2.fs = w.fs := ho.trans hfs1
      have hc := osCreate_look E w2 d k (by rw [hfs2]; exact hdst)
      split
      · next w3 e3 => rw [e3] at hc; simp only at hc ⊢; rw [hc, hfs2]
      · next dstf w3 e3 =>
        have hres := (osCreate_some E w2 d dstf (by rw [e3])).1
        rw [hfs2] at hres
        have hdk : dstf ≠ k := hdst dstf hres
        rw [e3] at hc
        simp only at hc
        have h3 : look w3.fs k = look w.fs k := by rw [hc, hfs2]
        have hcp := ioCopy_look E w3 dstf srcf k hdk
        split
        · next w4 e4 => rw [e4] at hcp; simp only at hcp ⊢; rw [hcp, h3]
        · next w4 e4 =>
          rw [e4] at hcp
          simp only at hcp
          have hrm := osRemove_look E w4 s k hsk
          split
          · next w5 e5 => rw [e5] at hrm; simp only at hrm ⊢; rw [hrm, hcp, h3]
          · next w5 e5 => rw [e5] at hrm; simp only at hrm ⊢; rw [hrm, hcp, h3]

theorem osLstat_not_symlink (E : Env) (w : World) (p : String)
    (h : ∀ t, look w.fs (pathKey p) ≠ some (.symlink t)) :
    ∀ t, (osLstat E w p).1 ≠ some (.symlink t) := by
  intro t
  unfold osLstat
  simp only
  split_ifs
  · simp
  · exact h t

theorem apart_under (a b k : Key) (h : apart a b = true) (hk : under b k = true) :
    under a k = false := by
  unfold apart at h
  simp only [Bool.and_eq_true, Bool.not_eq_true'] at h
  obtain ⟨r, rfl⟩ := (under_iff b k).1 hk
  exact under_append_false a b r h.1 h.2

theorem osStat_fs (E : Env) (w : World) (p : String) : (osStat E w p).2.fs = w.fs := rfl

theorem osReadDir_fs (E : Env) (w : World) (p : String) : (osReadDir E w p).2.fs = w.fs := by
  unfold osReadDir
  simp only
  split_ifs <;> rfl

theorem osStat_none (E : Env) (w : World) (p : String)
    (hfree : E.deny w.log (.stat p) = false) (h : (osStat E w p).1 = none) :
    lookFollow w.fs (pathKey p) = none := by
  unfold osStat at h
  simp only [hfree, Bool.false_eq_true, if_false] at h
  exact h

theorem lookFollow_none_key (fs : FS) (k0 dstf k : Key) (h : lookFollow fs k0 = none)
    (hd : resolveKey fs maxLinks k0 = some dstf) (hk : look fs k ≠ none) : dstf ≠ k := by
  intro he
  unfold lookFollow at h
  rw [hd] at h
  simp only at h
  rw [he] at h
  exact hk h

theorem lookFollow_plain (fs : FS) (k : Key) (n : Node) (h : look fs k = some n)
    (hn : ∀ t, n ≠ .symlink t) : lookFollow fs k = some n := by
  have hr : resolveKey fs maxLinks k = some k := by
    have hm : maxLinks = 39 + 1 := rfl
    rw [hm]
    unfold resolveKey
    rw [h]
    cases n with
    | file c => rfl
    | dir => rfl
    | symlink t => exact absurd rfl (hn t)
  unfold lookFollow
  rw [hr]
  exact h

/-- A turn of the scan loop leaves alone every entry that is there, is not
named `.DS_Store`, is apart from the two paths of the turn and is left alone
by the linking tool. -/
theorem importStep_look (C : Config) (E : Env) (st : List String × World) (Z : String)
    (m : Node) (k : Key)
    (hstat : ∀ log p, E.deny log (.stat p) = false)
    (hk : look st.2.fs k ≠ none) (hlast : k.getLast? ≠ some ".DS_Store")
    (hsep : Z ∉ excludeTops → under (pathKey (topPathOf C Z)) k = false ∧
      under (pathKey (destPathOf C Z)) k = false)
    (htool : ∀ dir args fs, look (E.run dir args fs).2 k = look fs k) :
    look (importStep C E st (Z, m)).2.fs k = look st.2.fs k := by
  unfold importStep
  simp only
  split_ifs with h1 h2 h3 h4 h5
  · rfl
  · rfl
  · rfl
  · rfl
  · obtain ⟨hs1, hs2⟩ := hsep h2
    split
    · next v w1 heq =>
      have : w1 = (osStat E st.2 (destPathOf C Z)).2 := by
        have := congrArg Prod.snd heq
        simpa [destPathOf] using this.symm
      rw [this]
      rfl
    · next w1 heq =>
      have hw1 : w1 = (osStat E st.2 (destPathOf C Z)).2 := by
        have := congrArg Prod.snd heq
        simpa [destPathOf] using this.symm
      have hnone : lookFollow st.2.fs (pathKey (destPathOf C Z)) = none := by
        apply osStat_none E st.2 _ (hstat _ _)
        have := congrArg Prod.fst heq
        simpa [destPathOf] using this
      have hfs1 : w1.fs = st.2.fs := by rw [hw1]; rfl
      have hmv : look (moveFile E w1 (topPathOf C Z) (destPathOf C Z)).2.fs k
          = look st.2.fs k := by
        rw [moveFile_look E w1 _ _ k ?_ hs1 hs2, hfs1]
        intro dstf hd
        rw [hfs1] at hd
        exact lookFollow_none_key _ _ _ _ hnone hd hk
      split
      · next w2 heq2 =>
        have : w2 = (moveFile E w1 (topPathOf C Z) (destPathOf C Z)).2 := by
          have := congrArg Prod.snd heq2
          simpa [destPathOf, topPathOf] using this.symm
        rw [this]
        exact hmv
      · next w2 heq2 =>
        have : w2 = (moveFile E w1 (topPathOf C Z) (destPathOf C Z)).2 := by
          have := congrArg Prod.snd heq2
          simpa [destPathOf, topPathOf] using this.symm
        rw [this]
        simp only
        rw [runStow_root_fs, htool, removeDSStores_look E _ _ k hlast]
        exact hmv
  · split
    · next v w1 heq =>
      have : w1 = (osStat E st.2 (destPathOf C Z)).2 := by
        have := congrArg Prod.snd heq
        simpa [destPathOf] using this.symm
      rw [this]
      rfl
    · next w1 heq =>
      have : w1 = (osStat E st.2 (destPathOf C Z)).2 := by
        have := congrArg Prod.snd heq
        simpa [destPathOf] using this.symm
      rw [this]
      rfl

/-! ## Splitting, joining and cleaning -/

theorem splitSep_ne_nil (l : List Char) : splitSep l ≠ [] := by
  cases l with
  | nil => simp [splitSep]
  | cons c cs =>
    unfold splitSep
    split
    · simp
    · split_ifs <;> simp

theorem splitSep_cons (c : Char) (cs : List Char) :
    splitSep (c :: cs) =
      match splitSep cs with
      | [] => [[]]
      | w :: ws => if c = '/' then [] :: w :: ws else (c :: w) :: ws := by
  rw [splitSep]

theorem splitSep_append_sep (a b : List Char) :
    splitSep (a ++ '/' :: b) = splitSep a ++ splitSep b := by
  induction a with
  | nil =>
    rcases hb : splitSep b with _ | ⟨w, ws⟩
    · exact absurd hb (splitSep_ne_nil b)
    · simp [splitSep, hb]
  | cons c a ih =>
    rcases ha : splitSep a with _ | ⟨w, ws⟩
    · exact absurd ha (splitSep_ne_nil a)
    · rw [List.cons_append, splitSep_cons c (a ++ '/' :: b), splitSep_cons c a, ih, ha]
      simp only [List.cons_append]
      split_ifs <;> rfl

theorem splitSep_plain (w : List Char) (h : '/' ∉ w) : splitSep w = [w] := by
  induction w with
  | nil => rfl
  | cons c cs ih =>
    have hc : c ≠ '/' := fun he => h (by simp [he])
    have hcs : '/' ∉ cs := fun hm => h (List.mem_cons_of_mem _ hm)
    rw [splitSep_cons, ih hcs]
    simp [hc]

theorem mem_splitSep (l x : List Char) (h : x ∈ splitSep l) : '/' ∉ x := by
  induction l generalizing x with
  | nil =>
    simp only [splitSep, List.mem_singleton] at h
    simp [h]
  | cons c cs ih =>
    rcases hs : splitSep cs with _ | ⟨w, ws⟩
    · exact absurd hs (splitSep_ne_nil cs)
    · rw [splitSep_cons, hs] at h
      simp only at h
      have hw : '/' ∉ w := ih w (by rw [hs]; exact List.mem_cons_self _ _)
      have hws : ∀ y ∈ ws, '/' ∉ y := fun y hy =>
        ih y (by rw [hs]; exact List.mem_cons_of_mem _ hy)
      split_ifs at h with hc
      · rcases List.mem_cons.1 h with h1 | h1
        · simp [h1]
        · rcases List.mem_cons.1 h1 with h2 | h2
          · rw [h2]; exact hw
          · exact hws x h2
      · rcases List.mem_cons.1 h with h1 | h1
        · rw [h1]
          intro hm
          rcases List.mem_cons.1 hm with h2 | h2
          · exact hc h2.symm
          · exact hw h2
        · exact hws x h1

theorem splitSep_joinSep (segs : List (List Char)) (hne : segs ≠ [])
    (h : ∀ x ∈ segs, '/' ∉ x) : splitSep (joinSep segs) = segs := by
  induction segs with
  | nil => exact absurd rfl hne
  | cons w ws ih =>
    cases ws with
    | nil => exact splitSep_plain w (h w (List.mem_cons_self _ _))
    | cons w2 ws2 =>
      have hj : joinSep (w :: w2 :: ws2) = w ++ '/' :: joinSep (w2 :: ws2) := rfl
      rw [hj, splitSep_append_sep, splitSep_plain w (h w (List.mem_cons_self _ _)),
        ih (by simp) (fun x hx => h x (List.mem_cons_of_mem _ hx))]
      rfl

theorem cleanStep_plain (out : List (List Char)) (e : List Char)
    (hout : ∀ x ∈ out, PlainName x) (he : '/' ∉ e) :
    ∀ x ∈ cleanStep true out e, PlainName x := by
  unfold cleanStep
  by_cases h1 : e = [] ∨ e = ['.']
  · rw [if_pos h1]; exact hout
  rw [if_neg h1]
  by_cases h2 : e = ['.', '.']
  · rw [if_pos h2]
    cases out with
    | nil => simp
    | cons t rest =>
      have ht : t ≠ ['.', '.'] := (hout t (List.mem_cons_self _ _)).2.2.2
      simp only [if_neg ht]
      exact fun x hx => hout x (List.mem_cons_of_mem _ hx)
  rw [if_neg h2]
  intro x hx
  rcases List.mem_cons.1 hx with h | h
  · rw [h]
    simp only [not_or] at h1
    exact ⟨he, h1.1, h1.2, h2⟩
  · exact hout x h

theorem foldl_cleanStep_plain (es out : List (List Char))
    (hout : ∀ x ∈ out, PlainName x) (hes : ∀ e ∈ es, '/' ∉ e) :
    ∀ x ∈ es.foldl (cleanStep true) out, PlainName x := by
  induction es generalizing out with
  | nil => exact hout
  | cons e rest ih =>
    rw [List.foldl_cons]
    exact ih _ (cleanStep_plain out e hout (hes e (List.mem_cons_self _ _)))
      (fun x hx => hes x (List.mem_cons_of_mem _ hx))

/-- The elements of a cleaned rooted path are plain names. -/
theorem cleanSegs_plain (s : List Char) : ∀ x ∈ cleanSegs true (splitSep s), PlainName x := by
  intro x hx
  unfold cleanSegs at hx
  rw [List.mem_reverse] at hx
  exact foldl_cleanStep_plain _ [] (by simp) (fun e he => mem_splitSep s e he) x hx

theorem Clean_rooted (p : String) (h : hasPrefix p "/" = true) :
    Clean p = String.mk ('/' :: joinSep (cleanSegs true (splitSep p.data))) := by
  unfold Clean
  simp only [h, if_true]

theorem takeWhile_plain_append (w rest : List Char) (h : '/' ∉ w) :
    (w ++ '/' :: rest).takeWhile (fun c => c ≠ '/') = w := by
  induction w with
  | nil => simp [List.takeWhile]
  | cons c cs ih =>
    have hc : c ≠ '/' := fun he => h (by simp [he])
    have hcs : '/' ∉ cs := fun hm => h (List.mem_cons_of_mem _ hm)
    rw [List.cons_append, List.takeWhile_cons_of_pos (by simpa using hc), ih hcs]

theorem takeWhile_plain (w : List Char) (h : '/' ∉ w) :
    w.takeWhile (fun c => c ≠ '/') = w := by
  induction w with
  | nil => rfl
  | cons c cs ih =>
    have hc : c ≠ '/' := fun he => h (by simp [he])
    have hcs : '/' ∉ cs := fun hm => h (List.mem_cons_of_mem _ hm)
    rw [List.takeWhile_cons_of_pos (by simpa using hc), ih hcs]

theorem relLoop_nil (fuel : Nat) (t : List Char) : relLoop fuel [] t = ([], [], t) := by
  cases fuel <;> simp [relLoop]

/-- The element loop of `filepath.Rel` on a base and a target that continues
it: the base is used up and what the target adds is left. -/
theorem relLoop_segs (hs : List (List Char)) :
    ∀ (h : List Char) (rest : List (List Char)) (fuel : Nat),
      (∀ x ∈ h :: hs, PlainName x) → rest ≠ [] →
      (joinSep (h :: hs)).length ≤ fuel →
      relLoop fuel (joinSep (h :: hs)) (joinSep (h :: hs ++ rest)) = ([], [], joinSep rest) := by
  induction hs with
  | nil =>
    intro h rest fuel hp hr hf
    have hh := hp h (List.mem_cons_self _ _)
    obtain ⟨r0, rs, rfl⟩ := List.exists_cons_of_ne_nil hr
    have hb : joinSep [h] = h := rfl
    have ht : joinSep (h :: [] ++ r0 :: rs) = h ++ '/' :: joinSep (r0 :: rs) := rfl
    rw [hb, ht]
    rw [hb] at hf
    cases fuel with
    | zero =>
      exfalso
      have : h = [] := List.length_eq_zero.1 (Nat.le_zero.1 hf)
      exact hh.2.1 this
    | succ f =>
      unfold relLoop
      have hne : ¬ (h = [] ∨ h ++ '/' :: joinSep (r0 :: rs) = []) := by
        simp [hh.2.1]
      rw [if_neg hne]
      simp only [takeWhile_plain h hh.1, takeWhile_plain_append h _ hh.1, ne_eq,
        not_true_eq_false, if_false, List.drop_length, List.drop_left, List.drop_nil,
        List.drop_succ_cons, List.drop_zero]
      exact relLoop_nil f _
  | cons h2 hs2 ih =>
    intro h rest fuel hp hr hf
    have hh := hp h (List.mem_cons_self _ _)
    have hb : joinSep (h :: h2 :: hs2) = h ++ '/' :: joinSep (h2 :: hs2) := rfl
    have ht : joinSep (h :: h2 :: hs2 ++ rest) = h ++ '/' :: joinSep (h2 :: hs2 ++ rest) := rfl
    rw [hb, ht]
    rw [hb] at hf
    cases fuel with
    | zero => simp at hf
    | succ f =>
      unfold relLoop
      have hne : ¬ (h ++ '/' :: joinSep (h2 :: hs2) = [] ∨
          h ++ '/' :: joinSep (h2 :: hs2 ++ rest) = []) := by simp
      rw [if_neg hne]
      simp only [takeWhile_plain_append h _ hh.1, ne_eq, not_true_eq_false, if_false,
        List.drop_left, List.drop_succ_cons, List.drop_zero]
      apply ih h2 rest f (fun x hx => hp x (List.mem_cons_of_mem _ hx)) hr
      simp only [List.length_append, List.length_cons] at hf
      omega
/-! ## Properties of the program -/

theorem isTempFile_of_mark (name : String)
    (h : "~".data <:+ name.data ∨ ".swp".data <:+ name.data ∨ ".swx".data <:+ name.data ∨
      ".tmp".data <:+ name.data ∨ ".#".data <+: name.data) : isTempFile name = true := by
  simp only [isTempFile, tempSuffixes, hasSuffix, hasPrefix, List.any_cons, List.any_nil,
    Bool.or_false, Bool.or_eq_true, List.isSuffixOf_iff_suffix, List.isPrefixOf_iff_prefix]
  tauto

/-- C4: for every path whose leaf name `filepath.Base(p)` ends in `~`, `.swp`,
`.swx` or `.tmp`, or begins with `.#`, `handlePath` returns the world it was
given: the filesystem is the same and no call at all has been made, so the
filesystem has not been inspected and nothing has been moved, backed up or
linked. -/
theorem handlePath_temp_ignored (C : Config) (E : Env) (w : World) (p : String)
    (h : "~".data <:+ (Base p).data ∨ ".swp".data <:+ (Base p).data ∨
      ".swx".data <:+ (Base p).data ∨ ".tmp".data <:+ (Base p).data ∨
      ".#".data <+: (Base p).data) :
    handlePath C E w p = w := by
  have ht := isTempFile_of_mark _ h
  unfold handlePath
  split
  · rfl
  · simp [ht]

/-- C4, witness: an editor swap file at the top of the home directory. -/
theorem handlePath_temp_ignored_witness :
    handlePath exCfg exEnv ⟨exSwap, []⟩ "/home/u/.vimrc.swp" = ⟨exSwap, []⟩ :=
  handlePath_temp_ignored exCfg exEnv ⟨exSwap, []⟩ "/home/u/.vimrc.swp"
    (Or.inr (Or.inl (by decide)))

/-- C5: for every path whose first segment relative to the watched root is a
key of `excludeTops`, also a path nested below such an entry, `handlePath`
returns the world it was given: nothing is inspected, moved, backed up or
linked. -/
theorem handlePath_excluded_ignored (C : Config) (E : Env) (w : World) (p rel : String)
    (seg : List Char) (rest : List (List Char))
    (hrel : Rel C.homeDir p = some rel) (hseg : splitSep rel.data = seg :: rest)
    (hex : String.mk seg ∈ excludeTops) :
    handlePath C E w p = w := by
  unfold handlePath
  split
  · rfl
  · next top htop =>
    have : top = String.mk seg := by
      unfold isTopLevelDot at htop
      rw [hrel] at htop
      simp only [hseg] at htop
      split_ifs at htop <;> simp_all
    simp [this, hex]

/-- C5, witness: a file inside `.git` at the top of the home directory. -/
theorem handlePath_excluded_ignored_witness :
    handlePath exCfg exEnv ⟨exClash, []⟩ "/home/u/.git/config" = ⟨exClash, []⟩ :=
  handlePath_excluded_ignored exCfg exEnv ⟨exClash, []⟩ "/home/u/.git/config" ".git/config"
    ".git".data ["config".data] (by decide) (by decide) (by decide)

/-- C2 (as amended): when `os.Lstat` succeeds on the top-level entry
`<home>/<top>` of the path and reports a symlink, `handlePath` leaves the
filesystem as it is and makes no call that can change it or run the linking
tool, whatever the dry-run flag and whatever is in the repository. -/
theorem handlePath_symlink_guard (C : Config) (E : Env) (w : World) (p t : String)
    (h : (osLstat E w (Join [C.homeDir, (isTopLevelDot C.homeDir p).2])).1
      = some (.symlink t)) :
    (handlePath C E w p).fs = w.fs ∧
      ∃ l, (handlePath C E w p).log = w.log ++ l ∧ ∀ c ∈ l, c.1.mutates = false := by
  unfold handlePath
  split
  · exact ⟨rfl, [], by simp, by simp⟩
  · next top htop =>
    rw [htop] at h
    simp only at h
    have hl : osLstat E w (Join [C.homeDir, top]) =
        (some (.symlink t), w.note (.lstat (Join [C.homeDir, top])) true w.fs) := by
      refine Prod.ext h ?_
      unfold osLstat at h ⊢
      simp only at h ⊢
      rw [h]
      rfl
    by_cases h1 : top ∈ excludeTops
    · rw [if_pos h1]; exact ⟨rfl, [], by simp, by simp⟩
    rw [if_neg h1]
    by_cases h2 : top = ".DS_Store"
    · rw [if_pos h2]; exact ⟨rfl, [], by simp, by simp⟩
    rw [if_neg h2]
    by_cases h3 : isTempFile (Base p) = true
    · rw [if_pos h3]; exact ⟨rfl, [], by simp, by simp⟩
    rw [if_neg h3]
    simp only [hl]
    exact ⟨rfl, [(Call.lstat (Join [C.homeDir, top]), true)], rfl, by simp [Call.mutates]⟩

set_option maxRecDepth 100000 in
/-- C2, witness: `<home>/.x` is already a symlink into the repository, which
holds `.x`. -/
theorem handlePath_symlink_guard_witness :
    (handlePath exCfg exEnv ⟨exLinkedHome, []⟩ "/home/u/.x").fs = exLinkedHome ∧
      ∃ l, (handlePath exCfg exEnv ⟨exLinkedHome, []⟩ "/home/u/.x").log = [] ++ l ∧
        ∀ c ∈ l, c.1.mutates = false :=
  handlePath_symlink_guard exCfg exEnv ⟨exLinkedHome, []⟩ "/home/u/.x" ".dotfiles/.x"
    (by decide)

set_option maxRecDepth 100000 in
/-- C2, counterexample: `<home>/.x` is a symlink, but `os.Lstat` is refused.
`handlePath` takes the error for "not a symlink" and goes on: it moves the
repository's `.x` into the snapshot directory, moves the symlink into the
repository and runs the linking tool. -/
theorem handlePath_lstat_error_skips_guard :
    look exLinkedHome ["", "home", "u", ".x"] = some (.symlink ".dotfiles/.x") ∧
    look exLinkedHome ["", "home", "u", ".dotfiles", ".x"] = some (.file "kept") ∧
    look (handlePath exCfg exBlind ⟨exLinkedHome, []⟩ "/home/u/.x").fs
      ["", "home", "u", ".dotfiles", ".x"] = some (.symlink ".dotfiles/.x") ∧
    look (handlePath exCfg exBlind ⟨exLinkedHome, []⟩ "/home/u/.x").fs
      ["", "home", "u", ".x"] = none ∧
    (handlePath exCfg exBlind ⟨exLinkedHome, []⟩ "/home/u/.x").log =
      [(.lstat "/home/u/.x", false), (.stat "/home/u/.dotfiles/.x", true),
       (.mkdirAll "/home/u/.dotfiles/backups/20240101-120000", true),
       (.rename "/home/u/.dotfiles/.x" "/home/u/.dotfiles/backups/20240101-120000/.x", true),
       (.rename "/home/u/.x" "/home/u/.dotfiles/.x", true),
       (.exec "/home/u/.dotfiles" ["stow", "-v", "-t", "/home/u", "."], true)] := by
  decide

set_option maxRecDepth 100000 in
/-- C3, the code at the failing input: dry-run on, `.x` both in the home
directory and in the repository. `handlePath` calls `backupPath`, whose
`os.MkdirAll` runs before the dry-run flag is looked at, and the snapshot
directory is created. -/
theorem dryRun_creates_snapshot_dir :
    exDry.dryRun = true ∧
    look exClash ["", "home", "u", ".dotfiles", "backups", "20240101-120000"] = none ∧
    look (handlePath exDry exEnv ⟨exClash, []⟩ "/home/u/.x").fs
      ["", "home", "u", ".dotfiles", "backups", "20240101-120000"] = some .dir ∧
    (handlePath exDry exEnv ⟨exClash, []⟩ "/home/u/.x").log =
      [(.lstat "/home/u/.x", true), (.stat "/home/u/.dotfiles/.x", true),
       (.mkdirAll "/home/u/.dotfiles/backups/20240101-120000", true)] := by
  decide

set_option maxRecDepth 100000 in
/-- C7, the code at the failing input: the home directory holds the swap file
`.vimrc.swp`, which `isTempFile` recognises. `importScan` moves it into the
repository and returns its name. `handlePath` tests the leaf name only: for a
path beneath the top-level entry `.cache~` it moves that entry. -/
theorem temp_names_are_relocated :
    isTempFile ".vimrc.swp" = true ∧
    (importScan exCfg exEnv ⟨exSwap, []⟩).1 = [".vimrc.swp"] ∧
    look (importScan exCfg exEnv ⟨exSwap, []⟩).2.fs ["", "home", "u", ".dotfiles", ".vimrc.swp"]
      = some (.file "swap") ∧
    look (importScan exCfg exEnv ⟨exSwap, []⟩).2.fs ["", "home", "u", ".vimrc.swp"] = none ∧
    isTempFile ".cache~" = true ∧
    look (handlePath exCfg exEnv ⟨exTilde, []⟩ "/home/u/.cache~/x").fs
      ["", "home", "u", ".dotfiles", ".cache~"] = some .dir ∧
    look (handlePath exCfg exEnv ⟨exTilde, []⟩ "/home/u/.cache~/x").fs
      ["", "home", "u", ".cache~"] = none := by
  decide

set_option maxRecDepth 100000 in
/-- C8, counterexample: for the parent of the watched root and for a path in a
sibling directory `filepath.Rel` succeeds with a result that starts with `..`,
which begins with a dot, so `isTopLevelDot` answers true with the name `..`;
`handlePath` then goes on to change the filesystem. -/
theorem isTopLevelDot_accepts_outside :
    isTopLevelDot "/home/u" "/home" = (true, "..") ∧
    isTopLevelDot "/home/u" "/home/v/notes.txt" = (true, "..") ∧
    look exClash ["", "home", "u", ".dotfiles", "backups", "20240101-120000", "u"] = none ∧
    look (handlePath exCfg exEnv ⟨exClash, []⟩ "/home").fs
      ["", "home", "u", ".dotfiles", "backups", "20240101-120000", "u"] = some (.file "") := by
  decide

set_option maxRecDepth 100000 in
/-- C10, counterexample: `<home>/.x` is missing when the event is handled and
the repository holds `.x`. The move fails, and after `handlePath` nothing is
at `<repo>/.x`: the backup step has moved it into the snapshot directory. -/
theorem handlePath_failed_move_loses_dest :
    isTopLevelDot exCfg.homeDir "/home/u/.x" = (true, ".x") ∧
    look exGone ["", "home", "u", ".dotfiles", ".x"] = some (.file "old") ∧
    look (handlePath exCfg exEnv ⟨exGone, []⟩ "/home/u/.x").fs
      ["", "home", "u", ".dotfiles", ".x"] = none ∧
    (handlePath exCfg exEnv ⟨exGone, []⟩ "/home/u/.x").log =
      [(.lstat "/home/u/.x", false), (.stat "/home/u/.dotfiles/.x", true),
       (.mkdirAll "/home/u/.dotfiles/backups/20240101-120000", true),
       (.rename "/home/u/.dotfiles/.x" "/home/u/.dotfiles/backups/20240101-120000/.x", true),
       (.rename "/home/u/.x" "/home/u/.dotfiles/.x", false),
       (.openFile "/home/u/.x", false)] := by
  decide

theorem afterProbe_fs (C : Config) (E : Env) (w : World) (X : String) :
    (afterProbe C E w X).fs = w.fs := rfl

/-- C1 (as amended): for a path classified as relocatable with top-level name
`X`, dry-run off, `<home>/X` present and not a symlink, `<repo>/X` found by
`os.Stat`, the snapshot directory made and both renames successful, and neither
the snapshot directory nor the backup path at or beneath `<home>/X` or
`<repo>/X` (nor `<home>/X` beneath the backup path): the filesystem after
`handlePath` is what the linking tool makes of a state in which the backup path
holds, entry for entry, what was at `<repo>/X`, and `<repo>/X` holds, entry for
entry, what was at `<home>/X`, except that entries named `.DS_Store` may have
been removed, and in which `<home>/X` is gone. -/
theorem handlePath_backup_before_overwrite (C : Config) (E : Env) (w : World)
    (p X : String)
    (hcls : isTopLevelDot C.homeDir p = (true, X)) (hex : X ∉ excludeTops)
    (htmp : isTempFile (Base p) = false) (hdry : C.dryRun = false)
    (hhome : ∃ n, look w.fs (pathKey (topPathOf C X)) = some n ∧ ∀ t, n ≠ .symlink t)
    (hrepo : (osStat E (osLstat E w (topPathOf C X)).2 (destPathOf C X)).1 ≠ none)
    (hmk : (snapshotMkdir C E w X).1 = true)
    (hbk : (backupRename C E w X).1 = true)
    (hmv : (moveRename C E w X).1 = true)
    (hs1 : under (pathKey (topPathOf C X)) (pathKey (backupOf C E X)) = false)
    (hs2 : under (pathKey (backupOf C E X)) (pathKey (topPathOf C X)) = false)
    (hs3 : pathKey (destPathOf C X) ≠ pathKey (backupOf C E X))
    (hs4 : under (pathKey (destPathOf C X)) (pathKey (snapshotDir C E)) = false)
    (hs5 : under (pathKey (topPathOf C X)) (pathKey (snapshotDir C E)) = false) :
    (handlePath C E w p).fs =
      (E.run C.dotfilesDir ["stow", "-v", "-t", C.homeDir, "."]
        (removeDSStores E (moveRename C E w X).2 C.dotfilesDir).fs).2 ∧
    (∀ r, look (removeDSStores E (moveRename C E w X).2 C.dotfilesDir).fs
          (pathKey (backupOf C E X) ++ r) = look w.fs (pathKey (destPathOf C X) ++ r) ∨
        ((pathKey (backupOf C E X) ++ r).getLast? = some ".DS_Store" ∧
          look (removeDSStores E (moveRename C E w X).2 C.dotfilesDir).fs
            (pathKey (backupOf C E X) ++ r) = none)) ∧
    (∀ r, look (removeDSStores E (moveRename C E w X).2 C.dotfilesDir).fs
          (pathKey (destPathOf C X) ++ r) = look w.fs (pathKey (topPathOf C X) ++ r) ∨
        ((pathKey (destPathOf C X) ++ r).getLast? = some ".DS_Store" ∧
          look (removeDSStores E (moveRename C E w X).2 C.dotfilesDir).fs
            (pathKey (destPathOf C X) ++ r) = none)) ∧
    (∀ r, look (removeDSStores E (moveRename C E w X).2 C.dotfilesDir).fs
        (pathKey (topPathOf C X) ++ r) = none) := by
  obtain ⟨n, hn, hnsym⟩ := hhome
  have hns : ∀ t, (osLstat E w (topPathOf C X)).1 ≠ some (.symlink t) := by
    apply osLstat_not_symlink
    intro t ht
    rw [hn] at ht
    exact hnsym t (Option.some.inj ht)
  have hab : afterBackup C E w X = (backupRename C E w X).2 :=
    afterBackup_of_rename C E w X hdry hrepo hmk hbk
  obtain ⟨hok1, hfs1⟩ := osRename_true E _ _ _ hbk
  rw [if_neg hs3] at hfs1
  replace hfs1 : (backupRename C E w X).2.fs = moveTree (snapshotMkdir C E w X).2.fs
      (pathKey (destPathOf C X)) (pathKey (backupOf C E X)) := hfs1
  obtain ⟨_, ha1, ha2⟩ := renameOk_apart _ _ _ hok1 hs3
  obtain ⟨hok2, hfs2⟩ := osRename_true E _ _ _ hmv
  have hne : pathKey (topPathOf C X) ≠ pathKey (destPathOf C X) := by
    intro he
    have hgone : look (backupRename C E w X).2.fs (pathKey (topPathOf C X)) = none := by
      rw [hfs1, he]
      exact look_moveTree_src _ _ _ _ (by simp [under]) ha2
    unfold renameOk at hok2
    rw [hgone] at hok2
    split_ifs at hok2
  rw [if_neg hne] at hfs2
  replace hfs2 : (moveRename C E w X).2.fs = moveTree (backupRename C E w X).2.fs
      (pathKey (topPathOf C X)) (pathKey (destPathOf C X)) := hfs2
  obtain ⟨_, hb1, hb2⟩ := renameOk_apart _ _ _ hok2 hne
  have hfsm : ∀ a r, under a (pathKey (snapshotDir C E)) = false →
      look (snapshotMkdir C E w X).2.fs (a ++ r) = look w.fs (a ++ r) := by
    intro a r ha
    unfold snapshotMkdir
    rw [look_mkdirAll_frame E _ _ a r ha, afterProbe_fs]
  have hbkc : ∀ r, look (moveRename C E w X).2.fs (pathKey (backupOf C E X) ++ r)
      = look w.fs (pathKey (destPathOf C X) ++ r) := by
    intro r
    rw [hfs2, look_moveTree_other _ _ _ _ (under_append_false _ _ r hs1 hs2)
      (under_append_false _ _ r ha1 ha2)]
    rw [hfs1, look_moveTree_dst]
    exact hfsm _ r hs4
  have hdsc : ∀ r, look (moveRename C E w X).2.fs (pathKey (destPathOf C X) ++ r)
      = look w.fs (pathKey (topPathOf C X) ++ r) := by
    intro r
    rw [hfs2, look_moveTree_dst, hfs1, look_moveTree_other _ _ _ _
      (under_append_false _ _ r hb2 hb1) (under_append_false _ _ r hs2 hs1)]
    exact hfsm _ r hs5
  have htpc : ∀ r, look (moveRename C E w X).2.fs (pathKey (topPathOf C X) ++ r) = none := by
    intro r
    rw [hfs2]
    exact look_moveTree_src _ _ _ _ (under_append _ r) (under_append_false _ _ r hb2 hb1)
  refine ⟨?_, ?_, ?_, ?_⟩
  · rw [handlePath_relocatable C E w p X hcls hex htmp hns, hab]
    simp only [hdry, Bool.not_false, if_true]
    have hm := moveFile_of_rename E (backupRename C E w X).2 (topPathOf C X)
      (destPathOf C X) hmv
    rw [hm]
    exact runStow_root_fs C E _
  · intro r
    rcases removeDSStores_look_or E (moveRename C E w X).2 C.dotfilesDir
      (pathKey (backupOf C E X) ++ r) with h | h
    · exact Or.inl (h.trans (hbkc r))
    · exact Or.inr h
  · intro r
    rcases removeDSStores_look_or E (moveRename C E w X).2 C.dotfilesDir
      (pathKey (destPathOf C X) ++ r) with h | h
    · exact Or.inl (h.trans (hdsc r))
    · exact Or.inr h
  · intro r
    rcases removeDSStores_look_or E (moveRename C E w X).2 C.dotfilesDir
      (pathKey (topPathOf C X) ++ r) with h | h
    · exact h.trans (htpc r)
    · exact h.2

set_option maxRecDepth 100000 in
/-- C1, witness: a file `.x` in the home directory over a file `.x` in the
repository. -/
theorem handlePath_backup_before_overwrite_witness :
    (handlePath exCfg exEnv ⟨exClash, []⟩ "/home/u/.x").fs =
      (removeDSStores exEnv (moveRename exCfg exEnv ⟨exClash, []⟩ ".x").2
        exCfg.dotfilesDir).fs ∧
    look (removeDSStores exEnv (moveRename exCfg exEnv ⟨exClash, []⟩ ".x").2
        exCfg.dotfilesDir).fs ["", "home", "u", ".x"] = none ∧
    look (handlePath exCfg exEnv ⟨exClash, []⟩ "/home/u/.x").fs
        ["", "home", "u", ".dotfiles", "backups", "20240101-120000", ".x"]
      = some (.file "old") ∧
    look (handlePath exCfg exEnv ⟨exClash, []⟩ "/home/u/.x").fs
        ["", "home", "u", ".dotfiles", ".x"] = some (.file "new") := by
  have h := handlePath_backup_before_overwrite exCfg exEnv ⟨exClash, []⟩ "/home/u/.x" ".x"
    (by decide) (by decide) (by decide) rfl ⟨.file "new", by decide, by simp⟩ (by decide)
    (by decide) (by decide) (by decide) (by decide) (by decide) (by decide) (by decide)
    (by decide)
  exact ⟨h.1, h.2.2.2 [], by decide, by decide⟩

set_option maxRecDepth 100000 in
/-- C1, counterexample: `<home>/.cfg` is a directory holding a `.DS_Store`
file, `<repo>/.cfg` exists, every call succeeds; after `handlePath` the
repository's `.cfg` does not hold the `.DS_Store` that was in `<home>/.cfg`:
`runStow` removed it. -/
theorem handlePath_drops_ds_store :
    isTopLevelDot exCfg.homeDir "/home/u/.cfg" = (true, ".cfg") ∧
    look exMac ["", "home", "u", ".cfg", ".DS_Store"] = some (.file "icons") ∧
    look (handlePath exCfg exEnv ⟨exMac, []⟩ "/home/u/.cfg").fs
      ["", "home", "u", ".dotfiles", ".cfg", ".DS_Store"] = none ∧
    (handlePath exCfg exEnv ⟨exMac, []⟩ "/home/u/.cfg").log =
      [(.lstat "/home/u/.cfg", true), (.stat "/home/u/.dotfiles/.cfg", true),
       (.mkdirAll "/home/u/.dotfiles/backups/20240101-120000", true),
       (.rename "/home/u/.dotfiles/.cfg" "/home/u/.dotfiles/backups/20240101-120000/.cfg", true),
       (.rename "/home/u/.cfg" "/home/u/.dotfiles/.cfg", true),
       (.remove "/home/u/.dotfiles/.cfg/.DS_Store", true),
       (.exec "/home/u/.dotfiles" ["stow", "-v", "-t", "/home/u", "."], true)] := by
  decide

/-- C10 (as amended): for a path classified as relocatable, dry-run off and the
top-level entry not a symlink, if the move of `<home>/top` to `<repo>/top`
fails then `handlePath` stops there: its result is the state the failed
`moveFile` left after the backup step, and no command has been run, so the
linking tool has not been invoked. Nothing is said of `<repo>/top`: the backup
step has run before the move. -/
theorem handlePath_failed_move_stops (C : Config) (E : Env) (w : World) (p X : String)
    (hcls : isTopLevelDot C.homeDir p = (true, X)) (hex : X ∉ excludeTops)
    (htmp : isTempFile (Base p) = false) (hdry : C.dryRun = false)
    (hns : ∀ t, look w.fs (pathKey (topPathOf C X)) ≠ some (.symlink t))
    (hfail : (moveFile E (afterBackup C E w X) (topPathOf C X) (destPathOf C X)).1 = false) :
    handlePath C E w p =
        (moveFile E (afterBackup C E w X) (topPathOf C X) (destPathOf C X)).2 ∧
      Quiet w (handlePath C E w p) := by
  have heq : handlePath C E w p =
      (moveFile E (afterBackup C E w X) (topPathOf C X) (destPathOf C X)).2 := by
    rw [handlePath_relocatable C E w p X hcls hex htmp (osLstat_not_symlink E w _ hns)]
    simp only [hdry, Bool.not_false, if_true]
    split
    · next w4 h4 => rw [h4]
    · next w4 h4 => rw [h4] at hfail; exact absurd hfail (by simp)
  refine ⟨heq, ?_⟩
  rw [heq]
  exact (afterBackup_quiet C E w X).trans (moveFile_quiet E _ _ _)

set_option maxRecDepth 100000 in
/-- C10, witness: `<home>/.x` is missing when the event is handled. -/
theorem handlePath_failed_move_stops_witness :
    handlePath exCfg exEnv ⟨exGone, []⟩ "/home/u/.x" =
        (moveFile exEnv (afterBackup exCfg exEnv ⟨exGone, []⟩ ".x") (topPathOf exCfg ".x")
          (destPathOf exCfg ".x")).2 ∧
      Quiet ⟨exGone, []⟩ (handlePath exCfg exEnv ⟨exGone, []⟩ "/home/u/.x") :=
  handlePath_failed_move_stops exCfg exEnv ⟨exGone, []⟩ "/home/u/.x" ".x"
    (by decide) (by decide) (by decide) rfl
    (fun t h => absurd ((show look exGone (pathKey (topPathOf exCfg ".x")) = none
      from by decide).symm.trans h) (by simp))
    (by decide)

set_option maxRecDepth 100000 in
/-- C9, the code at the failing input: the destination is a symlink to the
source and the rename is refused, as across devices. In the fallback
`os.Create` follows the symlink and truncates the source, nothing is copied,
the source is removed and `moveFile` reports success: the source is gone and
the destination is a symlink that leads nowhere. `handlePath` reaches the same
state when the repository holds a symlink to the watched entry and the snapshot
directory cannot be made. -/
theorem moveFile_through_symlink_loses_content :
    look exLinked ["", "mnt", "a"] = some (.file "data") ∧
    (moveFile exXdev ⟨exLinked, []⟩ "/mnt/a" "/home/b").1 = true ∧
    look (moveFile exXdev ⟨exLinked, []⟩ "/mnt/a" "/home/b").2.fs ["", "mnt", "a"] = none ∧
    look (moveFile exXdev ⟨exLinked, []⟩ "/mnt/a" "/home/b").2.fs ["", "home", "b"]
      = some (.symlink "/mnt/a") ∧
    lookFollow (moveFile exXdev ⟨exLinked, []⟩ "/mnt/a" "/home/b").2.fs ["", "home", "b"]
      = none ∧
    (moveFile exXdev ⟨exLinked, []⟩ "/mnt/a" "/home/b").2.log =
      [(.rename "/mnt/a" "/home/b", false), (.openFile "/mnt/a", true),
       (.create "/home/b", true), (.copy ["", "mnt", "a"] ["", "mnt", "a"], true),
       (.remove "/mnt/a", true)] ∧
    look exBackLink ["", "home", "u", ".x"] = some (.file "data") ∧
    look (handlePath exFar exStuck ⟨exBackLink, []⟩ "/home/u/.x").fs
      ["", "home", "u", ".x"] = none ∧
    lookFollow (handlePath exFar exStuck ⟨exBackLink, []⟩ "/home/u/.x").fs
      ["", "mnt", "dot", ".x"] = none ∧
    (handlePath exFar exStuck ⟨exBackLink, []⟩ "/home/u/.x").log =
      [(.lstat "/home/u/.x", true), (.stat "/mnt/dot/.x", true),
       (.mkdirAll "/mnt/dot/backups/20240101-120000", false),
       (.rename "/home/u/.x" "/mnt/dot/.x", false), (.openFile "/home/u/.x", true),
       (.create "/mnt/dot/.x", true),
       (.copy ["", "home", "u", ".x"] ["", "home", "u", ".x"], true),
       (.remove "/home/u/.x", true),
       (.exec "/mnt/dot" ["stow", "-v", "-t", "/home/u", "."], true)] := by
  decide

/-- The scan loop from a state that keeps what the start state had at or
beneath `<home>/Y` and `<repo>/Y` and whose list lacks `Y`: it ends in such a
state. -/
theorem foldl_importStep_keeps (C : Config) (E : Env) (fs0 : FS) (Y : String) (n : Node)
    (hrepo : look fs0 (pathKey (destPathOf C Y)) = some n) (hn : ∀ t, n ≠ .symlink t)
    (hname : (pathKey (destPathOf C Y)).getLast? ≠ some ".DS_Store")
    (hstat : ∀ log p, E.deny log (.stat p) = false)
    (htool : ∀ dir args fs k, under (pathKey (topPathOf C Y)) k = true ∨
      under (pathKey (destPathOf C Y)) k = true → look (E.run dir args fs).2 k = look fs k)
    (ents : List (String × Node))
    (hsep : ∀ Z m, (Z, m) ∈ ents → Z ≠ Y → Z ∉ excludeTops →
      apart (pathKey (topPathOf C Z)) (pathKey (topPathOf C Y)) = true ∧
      apart (pathKey (topPathOf C Z)) (pathKey (destPathOf C Y)) = true ∧
      apart (pathKey (destPathOf C Z)) (pathKey (topPathOf C Y)) = true ∧
      apart (pathKey (destPathOf C Z)) (pathKey (destPathOf C Y)) = true)
    (st : List String × World) (hY : Y ∉ st.1)
    (h1 : Kept fs0 st.2.fs (pathKey (topPathOf C Y)))
    (h2 : Kept fs0 st.2.fs (pathKey (destPathOf C Y))) :
    Y ∉ (ents.foldl (importStep C E) st).1 ∧
      Kept fs0 (ents.foldl (importStep C E) st).2.fs (pathKey (topPathOf C Y)) ∧
      Kept fs0 (ents.foldl (importStep C E) st).2.fs (pathKey (destPathOf C Y)) := by
  induction ents generalizing st with
  | nil => exact ⟨hY, h1, h2⟩
  | cons e rest ih =>
    obtain ⟨Z, m⟩ := e
    rw [List.foldl_cons]
    have hrest : ∀ Z1 m1, (Z1, m1) ∈ rest → Z1 ≠ Y → Z1 ∉ excludeTops → _ :=
      fun Z1 m1 hm => hsep Z1 m1 (List.mem_cons_of_mem _ hm)
    by_cases hZ : Z = Y
    · subst hZ
      have hlk : look st.2.fs (pathKey (destPathOf C Z)) = some n := by
        rw [h2 _ (under_self _) hname (by simp [hrepo]), hrepo]
      have hst : (osStat E st.2 (destPathOf C Z)).1 ≠ none := by
        unfold osStat
        simp only [hstat, Bool.false_eq_true, if_false]
        rw [lookFollow_plain _ _ n hlk hn]
        simp
      rcases importStep_skip C E st Z m hst with h | h
      · rw [h]; exact ih hrest st hY h1 h2
      · rw [h]; exact ih hrest _ hY h1 h2
    · apply ih hrest
      · intro hin
        rcases importStep_names C E st (Z, m) Y hin with h | h
        · exact hY h
        · exact hZ h.symm
      · intro k hu hl hk
        rw [← h1 k hu hl hk]
        apply importStep_look C E st Z m k hstat (by rw [h1 k hu hl hk]; exact hk) hl
        · intro hex
          obtain ⟨a1, _, a3, _⟩ := hsep Z m (List.mem_cons_self _ _) hZ hex
          exact ⟨apart_under _ _ k a1 hu, apart_under _ _ k a3 hu⟩
        · intro dir args fs
          exact htool dir args fs k (Or.inl hu)
      · intro k hu hl hk
        rw [← h2 k hu hl hk]
        apply importStep_look C E st Z m k hstat (by rw [h2 k hu hl hk]; exact hk) hl
        · intro hex
          obtain ⟨_, a2, _, a4⟩ := hsep Z m (List.mem_cons_self _ _) hZ hex
          exact ⟨apart_under _ _ k a2 hu, apart_under _ _ k a4 hu⟩
        · intro dir args fs
          exact htool dir args fs k (Or.inr hu)

/-- C6 (as amended): let `<repo>/Y` be a file or a directory, not a symlink and
not itself named `.DS_Store`; let `os.Stat` fail only when nothing is there,
let the linking tool leave alone what is at or beneath `<home>/Y` and
`<repo>/Y`, and let the paths of the other entries of the home directory that
the scan handles lie apart from `<home>/Y` and `<repo>/Y`. Then `Y` does not
occur in the list `importScan` returns, and every entry that was at or beneath
`<home>/Y` or `<repo>/Y`, other than entries named `.DS_Store`, is after
`importScan` what it was before. -/
theorem importScan_defers (C : Config) (E : Env) (w : World) (Y : String)
    (hrepo : ∃ n, look w.fs (pathKey (destPathOf C Y)) = some n ∧ ∀ t, n ≠ .symlink t)
    (hname : (pathKey (destPathOf C Y)).getLast? ≠ some ".DS_Store")
    (hstat : ∀ log p, E.deny log (.stat p) = false)
    (htool : ∀ dir args fs k, under (pathKey (topPathOf C Y)) k = true ∨
      under (pathKey (destPathOf C Y)) k = true → look (E.run dir args fs).2 k = look fs k)
    (hsep : ∀ ents Z m, (osReadDir E w C.homeDir).1 = some ents → (Z, m) ∈ ents →
      Z ≠ Y → Z ∉ excludeTops →
      apart (pathKey (topPathOf C Z)) (pathKey (topPathOf C Y)) = true ∧
      apart (pathKey (topPathOf C Z)) (pathKey (destPathOf C Y)) = true ∧
      apart (pathKey (destPathOf C Z)) (pathKey (topPathOf C Y)) = true ∧
      apart (pathKey (destPathOf C Z)) (pathKey (destPathOf C Y)) = true) :
    Y ∉ (importScan C E w).1 ∧
      Kept w.fs (importScan C E w).2.fs (pathKey (topPathOf C Y)) ∧
      Kept w.fs (importScan C E w).2.fs (pathKey (destPathOf C Y)) := by
  obtain ⟨n, hlk, hn⟩ := hrepo
  have hfs := osReadDir_fs E w C.homeDir
  unfold importScan
  split
  · next w1 heq =>
    rw [heq] at hfs
    simp only at hfs ⊢
    refine ⟨by simp, ?_, ?_⟩ <;> intro k _ _ _ <;> rw [hfs]
  · next ents w1 heq =>
    rw [heq] at hfs
    simp only at hfs
    have he1 : (osReadDir E w C.homeDir).1 = some ents := by rw [heq]
    apply foldl_importStep_keeps C E w.fs Y n hlk hn hname hstat htool ents
      (fun Z m hm => hsep ents Z m he1 hm) ([], w1) (by simp)
    · intro k _ _ _; simp only; rw [hfs]
    · intro k _ _ _; simp only; rw [hfs]

set_option maxRecDepth 100000 in
/-- C6, witness: `.b` is in the home directory and in the repository, `.a` only
in the home directory. -/
theorem importScan_defers_witness :
    ".b" ∉ (importScan exCfg exEnv ⟨exScan, []⟩).1 ∧
      look (importScan exCfg exEnv ⟨exScan, []⟩).2.fs ["", "home", "u", ".b"]
        = look exScan ["", "home", "u", ".b"] ∧
      look (importScan exCfg exEnv ⟨exScan, []⟩).2.fs ["", "home", "u", ".dotfiles", ".b"]
        = look exScan ["", "home", "u", ".dotfiles", ".b"] ∧
      (importScan exCfg exEnv ⟨exScan, []⟩).1 = [".a"] := by
  have h := importScan_defers exCfg exEnv ⟨exScan, []⟩ ".b" ⟨.dir, by decide, by simp⟩
    (by decide) (fun _ _ => rfl) (fun _ _ _ _ _ => rfl) (by
      intro ents Z m h1 h2 h3 h4
      have hents : ents = [(".a", .file "a"), (".b", .dir), (".dotfiles", .dir)] :=
        Option.some.inj (h1.symm.trans (by decide))
      rw [hents] at h2
      simp only [List.mem_cons, Prod.mk.injEq, List.mem_singleton, List.not_mem_nil,
        or_false] at h2
      rcases h2 with ⟨rfl, _⟩ | ⟨rfl, _⟩ | ⟨rfl, _⟩
      · decide
      · exact absurd rfl h3
      · exact absurd (by decide) h4)
  exact ⟨h.1, h.2.1 _ (by decide) (by decide) (by decide),
    h.2.2 _ (by decide) (by decide) (by decide), by decide⟩

set_option maxRecDepth 100000 in
/-- C6, counterexample: `.b` is in the home directory and in the repository,
where it is a symlink to the home directory's `.a`; `os.Stat` finds it. The
scan moves `.a` first, after which `os.Stat` no longer finds `<repo>/.b`: `.b`
is moved over it and returned. And where the repository's `.b` is a directory
holding a `.DS_Store`, the scan removes that entry after it has moved `.a`. -/
theorem importScan_disturbs_existing :
    look exChain ["", "home", "u", ".b"] = some (.file "b") ∧
    look exChain ["", "home", "u", ".dotfiles", ".b"] = some (.symlink "/home/u/.a") ∧
    lookFollow exChain ["", "home", "u", ".dotfiles", ".b"] = some (.file "a") ∧
    (importScan exCfg exEnv ⟨exChain, []⟩).1 = [".a", ".b"] ∧
    look (importScan exCfg exEnv ⟨exChain, []⟩).2.fs ["", "home", "u", ".b"] = none ∧
    look (importScan exCfg exEnv ⟨exChain, []⟩).2.fs ["", "home", "u", ".dotfiles", ".b"]
      = some (.file "b") ∧
    look exScan ["", "home", "u", ".b"] = some .dir ∧
    look exScan ["", "home", "u", ".dotfiles", ".b"] = some .dir ∧
    look exScan ["", "home", "u", ".dotfiles", ".b", ".DS_Store"] = some (.file "icons") ∧
    look (importScan exCfg exEnv ⟨exScan, []⟩).2.fs
      ["", "home", "u", ".dotfiles", ".b", ".DS_Store"] = none := by
  decide

theorem hasPrefix_rooted (x : List Char) : hasPrefix (String.mk ('/' :: x)) "/" = true := by
  simp [hasPrefix, List.isPrefixOf]

theorem relLoop_rooted (H rest : List (List Char)) (n : Nat)
    (hH : ∀ x ∈ H, PlainName x) (hr : rest ≠ []) (hn : (joinSep H).length ≤ n) :
    relLoop (n + 1) ('/' :: joinSep H) ('/' :: joinSep (H ++ rest)) = ([], [], joinSep rest) := by
  unfold relLoop
  have hne : ¬ (('/' :: joinSep H) = [] ∨ ('/' :: joinSep (H ++ rest)) = []) := by simp
  rw [if_neg hne]
  simp only [List.takeWhile_cons, ne_eq, not_true_eq_false, decide_False, Bool.false_eq_true,
    if_false, List.length_nil, List.drop_zero, List.drop_succ_cons]
  cases H with
  | nil => exact relLoop_nil n _
  | cons h hs => exact relLoop_segs hs h rest n hH hr hn

/-- `filepath.Rel` from a rooted base to a rooted target beneath it gives the
elements the target adds. -/
theorem Rel_beneath (home p : String) (rest : List (List Char))
    (hh : hasPrefix home "/" = true) (hp : hasPrefix p "/" = true)
    (hseg : cleanSegs true (splitSep p.data) = cleanSegs true (splitSep home.data) ++ rest)
    (hr : rest ≠ []) (hne : Clean p ≠ Clean home) :
    Rel home p = some (String.mk (joinSep rest)) := by
  have hplain := cleanSegs_plain home.data
  unfold Rel
  simp only [if_neg hne]
  rw [Clean_rooted home hh, Clean_rooted p hp, hseg]
  have hdot : String.mk ('/' :: joinSep (cleanSegs true (splitSep home.data))) ≠ "." := by
    intro h
    have := congrArg String.data h
    simp at this
  simp only [if_neg hdot, hasPrefix_rooted, ne_eq, not_true_eq_false, if_false]
  have hl : (String.mk ('/' :: joinSep (cleanSegs true (splitSep home.data)))).data.length + 1
      = ((joinSep (cleanSegs true (splitSep home.data))).length + 1) + 1 := rfl
  rw [hl, relLoop_rooted _ rest _ hplain hr (Nat.le_succ _)]
  simp

/-- C8 (as amended): let the watched root and the path `p` be rooted, and let
`p` be the root or lie beneath it (the elements of the cleaned `p` start with
those of the cleaned root). If `p` is the root, `isTopLevelDot` answers false.
If it answers true with `top`, then `top` begins with a dot, is neither `.` nor
`..`, and is the first element `p` adds to the root: `p` is `<home>/top` or
lies beneath it. And whatever the paths, when `filepath.Rel` cannot express
`p` relative to the root, `isTopLevelDot` answers false. -/
theorem isTopLevelDot_beneath (home p : String) (rest : List (List Char))
    (hh : hasPrefix home "/" = true) (hp : hasPrefix p "/" = true)
    (hseg : cleanSegs true (splitSep p.data) = cleanSegs true (splitSep home.data) ++ rest) :
    (rest = [] → isTopLevelDot home p = (false, "")) ∧
    (∀ top, isTopLevelDot home p = (true, top) →
      hasPrefix top "." = true ∧ top ≠ "." ∧ top ≠ ".." ∧ ∃ tail, rest = top.data :: tail) ∧
    (Rel home p = none → isTopLevelDot home p = (false, "")) := by
  have hsame : rest = [] → Rel home p = some "." := by
    intro hr
    have : Clean p = Clean home := by
      rw [Clean_rooted home hh, Clean_rooted p hp, hseg, hr, List.append_nil]
    unfold Rel
    simp only [this, if_true]
  refine ⟨?_, ?_, ?_⟩
  · intro hr
    unfold isTopLevelDot
    rw [hsame hr]
    simp
  · intro top ht
    by_cases hne : Clean p = Clean home
    · exfalso
      have hrel : Rel home p = some "." := by
        unfold Rel
        simp only [hne, if_true]
      unfold isTopLevelDot at ht
      rw [hrel] at ht
      simp at ht
    · have hr : rest ≠ [] := by
        intro hr
        apply hne
        rw [Clean_rooted home hh, Clean_rooted p hp, hseg, hr, List.append_nil]
      obtain ⟨r0, rs, rfl⟩ := List.exists_cons_of_ne_nil hr
      have hrestplain : ∀ x ∈ r0 :: rs, PlainName x := by
        intro x hx
        apply cleanSegs_plain p.data
        rw [hseg]
        exact List.mem_append_right _ hx
      have hsplit : splitSep (joinSep (r0 :: rs)) = r0 :: rs :=
        splitSep_joinSep _ hr (fun x hx => (hrestplain x hx).1)
      unfold isTopLevelDot at ht
      rw [Rel_beneath home p _ hh hp hseg hr hne] at ht
      simp only [hsplit] at ht
      have hp0 := hrestplain r0 (List.mem_cons_self _ _)
      split_ifs at ht with h1 h2
      · exact absurd ht (by simp)
      · simp only [Prod.mk.injEq, true_and] at ht
        subst ht
        refine ⟨h2, ?_, ?_, rs, rfl⟩
        · intro h
          exact hp0.2.2.1 (congrArg String.data h)
        · intro h
          exact hp0.2.2.2 (congrArg String.data h)
      · exact absurd ht (by simp)
  · intro hrel
    unfold isTopLevelDot
    rw [hrel]

/-- C8, witness: a file beneath the top-level entry `.foo` of the home
directory. -/
theorem isTopLevelDot_beneath_witness :
    hasPrefix ".foo" "." = true ∧ ".foo" ≠ "." ∧ ".foo" ≠ ".." ∧
      ∃ tail, [".foo".data, "bar".data] = ".foo".data :: tail :=
  (isTopLevelDot_beneath "/home/u" "/home/u/.foo/bar" [".foo".data, "bar".data]
    (by decide) (by decide) (by decide)).2.1 ".foo" (by decide)
end AutoStow
